import Mathlib

/-!
# Verification of the feed-service registry engine

Shallow embedding of the pilet feed service (a TypeScript/Express/SQLite
artifact registry) and proofs about its registry engine: the version ledger
(`src/database/models/Version.ts`), the upload pipeline
(`src/routes/packages.ts`), the feed synthesizer (the feed router), the
download recorder (`DownloadModel`) and the semantic-version comparator
(`Helpers.compareVersions`, which delegates to the npm `semver` package).

SQLite rows are modelled as Lean structures, tables as lists in insertion
order, and each SQL statement as a pure list transformation.  UUIDs are
modelled as `Nat` identifiers drawn from a monotone counter (only freshness
matters), and `Date.now` timestamps as a monotone `Nat` clock.  A thrown JS
exception is an `Except.error`; transactional blocks (`BEGIN`/`COMMIT`
with `ROLLBACK` on error) become single atomic transitions.  The artifact
files on disk are modelled as a list of path strings.
-/

namespace FeedService

/-- A row of the `versions` table (see `mapRowToVersion` in `Version.ts`). -/
structure VersionRow where
  id : Nat
  packageId : Nat
  version : String
  changelog : Option String
  isLatest : Bool
  isDeprecated : Bool
  filePath : Option String
  fileSize : Option Nat
  checksum : Option String
  createdAt : Nat
  updatedAt : Nat
deriving Repr, DecidableEq

/-- A row of the `packages` table (see `mapRowToPackage` in `Package.ts`). -/
structure PkgRow where
  id : Nat
  name : String
  description : Option String
  author : String
  authorId : String
  isPublic : Bool
  createdAt : Nat
  updatedAt : Nat
deriving Repr, DecidableEq

/-- A row of the `downloads` table (see `mapRowToDownload` in `Download.ts`). -/
structure DownloadRow where
  id : Nat
  versionId : Nat
  packageId : Nat
  version : String
  ipAddress : String
  userAgent : Option String
  downloadedAt : Int
deriving Repr, DecidableEq

/-- The registry state: the SQLite tables (in row-insertion order), the set of
artifact files present on disk, plus the id counter and clock that model
`Helpers.generateId` and `new Date()`. -/
structure Reg where
  pkgs : List PkgRow
  vers : List VersionRow
  downloads : List DownloadRow
  files : List String
  nextId : Nat
  clock : Nat
deriving Repr, DecidableEq

/-- The empty registry (freshly created database). -/
def Reg.init : Reg := ⟨[], [], [], [], 0, 0⟩

/-- `AppError` from `middleware/errorHandler.ts`: a message and an HTTP status. -/
structure AppErr where
  message : String
  statusCode : Nat
deriving Repr, DecidableEq

namespace VersionModel

/-- `SELECT * FROM versions WHERE package_id = ? AND version = ?` (first row). -/
def findByPackageAndVersion (s : Reg) (packageId : Nat) (version : String) :
    Option VersionRow :=
  s.vers.find? fun r => r.packageId == packageId && r.version == version

/-- `SELECT * FROM versions WHERE id = ?` (first row). -/
def findById (s : Reg) (id : Nat) : Option VersionRow :=
  s.vers.find? fun r => r.id == id

/-- Insertion step of the `ORDER BY created_at DESC` sort. -/
def insertDesc (v : VersionRow) : List VersionRow → List VersionRow
  | [] => [v]
  | w :: ws => if w.createdAt < v.createdAt then v :: w :: ws else w :: insertDesc v ws

/-- `ORDER BY created_at DESC` modelled as an insertion sort (stable on ties). -/
def sortByCreatedDesc (l : List VersionRow) : List VersionRow :=
  l.foldr insertDesc []

/-- `SELECT * FROM versions WHERE package_id = ? ORDER BY created_at DESC`
(`VersionModel.findByPackageId`). -/
def findByPackageId (s : Reg) (packageId : Nat) : List VersionRow :=
  sortByCreatedDesc (s.vers.filter fun r => r.packageId == packageId)

/-- The effect of `UPDATE versions SET is_latest = 0 WHERE package_id = ?`
on one row. -/
def clearLatestRow (packageId clock : Nat) (w : VersionRow) : VersionRow :=
  if w.packageId == packageId then { w with isLatest := false, updatedAt := clock } else w

/-- `VersionModel.create`: rejects a duplicate `(packageId, version)`;
otherwise, inside one transaction, clears `is_latest` on every version of the
package and inserts the new row with `is_latest = 1`.  The transaction is one
atomic transition of the model. -/
def create (s : Reg) (packageId : Nat) (version : String) (changelog : Option String)
    (isDeprecated : Bool) (filePath : Option String) (fileSize : Option Nat)
    (checksum : Option String) : Except String (Reg × VersionRow) :=
  match findByPackageAndVersion s packageId version with
  | some _ => .error ("Version " ++ version ++ " already exists for this package")
  | none =>
    let nv : VersionRow :=
      { id := s.nextId, packageId := packageId, version := version,
        changelog := changelog, isLatest := true, isDeprecated := isDeprecated,
        filePath := filePath, fileSize := fileSize, checksum := checksum,
        createdAt := s.clock, updatedAt := s.clock }
    .ok ({ s with
           vers := (s.vers.map (clearLatestRow packageId s.clock)) ++ [nv],
           nextId := s.nextId + 1, clock := s.clock + 1 }, nv)

/-- `VersionModel.setNewLatestVersion` (private): `SELECT … ORDER BY created_at
DESC LIMIT 1` and, when a row exists, `UPDATE … SET is_latest = 1 WHERE id = ?`. -/
def setNewLatestVersion (s : Reg) (packageId : Nat) : Reg :=
  match (findByPackageId s packageId).head? with
  | none => s
  | some top =>
    { s with vers := s.vers.map fun w =>
        if w.id == top.id then { w with isLatest := true, updatedAt := s.clock } else w }

/-- `VersionModel.delete`: refuses to delete the latest version while other
versions of the package exist; otherwise deletes the row and, when the deleted
row was latest, runs `setNewLatestVersion` on the package. -/
def del (s : Reg) (id : Nat) : Except String (Reg × Bool) :=
  match findById s id with
  | none => .ok (s, false)
  | some v =>
    if v.isLatest && decide ((findByPackageId s v.packageId).length > 1) then
      .error "Cannot delete latest version when other versions exist"
    else
      let s' := { s with vers := s.vers.filter fun r => !(r.id == id) }
      let deleted := s.vers.length ≠ s'.vers.length
      if deleted ∧ v.isLatest then
        .ok (setNewLatestVersion s' v.packageId, true)
      else
        .ok (s', deleted)

/-- `VersionModel.setLatest`: one transaction clearing `is_latest` for the
package then setting it on `WHERE id = ? AND package_id = ?`; returns whether
the second update changed a row. -/
def setLatest (s : Reg) (packageId versionId : Nat) : Reg × Bool :=
  let cleared := s.vers.map (clearLatestRow packageId s.clock)
  let setRow := fun (w : VersionRow) =>
    if w.id == versionId && w.packageId == packageId then
      { w with isLatest := true, updatedAt := s.clock } else w
  let changed := cleared.countP (fun w => w.id == versionId && w.packageId == packageId) > 0
  ({ s with vers := cleared.map setRow }, changed)

/-- `VersionModel.updateDeprecated`: `UPDATE versions SET is_deprecated = ?
WHERE id = ?`. -/
def updateDeprecated (s : Reg) (versionId : Nat) (flag : Bool) : Reg :=
  { s with vers := s.vers.map fun w =>
      if w.id == versionId then { w with isDeprecated := flag, updatedAt := s.clock } else w }

/-- `VersionModel.getLatestVersion`: `versions.find(v => v.isLatest) ||
versions[0] || null` (a pure function of the queried list). -/
def getLatestVersion (versions : List VersionRow) : Option VersionRow :=
  match versions.find? (fun v => v.isLatest) with
  | some v => some v
  | none => versions.head?

end VersionModel

namespace PackageModel

/-- `SELECT * FROM packages WHERE name = ?` (first row). -/
def findByName (s : Reg) (name : String) : Option PkgRow :=
  s.pkgs.find? fun p => p.name == name

/-- `PackageModel.create`: inserts a new package row. -/
def create (s : Reg) (name : String) (description : Option String)
    (author authorId : String) (isPublic : Bool) : Reg × PkgRow :=
  let p : PkgRow :=
    { id := s.nextId, name := name, description := description, author := author,
      authorId := authorId, isPublic := isPublic, createdAt := s.clock, updatedAt := s.clock }
  ({ s with
     pkgs := s.pkgs ++ [p], nextId := s.nextId + 1, clock := s.clock + 1 }, p)

end PackageModel

/-! ## The metadata extractor (`extractPackageInfo` in `routes/packages.ts`) -/

/-- What is found at one candidate `package.json` location inside the archive:
no file, a file that `JSON.parse` rejects, or parsed JSON with its (possibly
absent) `name` / `version` / `description` fields. -/
inductive ManifestJson
  | missing
  | malformed
  | fields (name : Option String) (version : Option String) (description : Option String)
deriving Repr, DecidableEq

/-- `fs.existsSync` on a candidate `package.json` location. -/
def hasManifest : ManifestJson → Bool
  | .missing => false
  | _ => true

/-- The contents of an uploaded archive, as seen by `extractPackageInfo`:
whether `tar.x` succeeds, the manifest at the archive root, and the manifest of
each immediate subdirectory in directory-listing order. -/
structure ArchiveContent where
  readable : Bool
  root : ManifestJson
  subdirs : List ManifestJson
deriving Repr, DecidableEq

/-- Package info extracted from an archive. -/
structure PkgInfo where
  name : String
  version : String
  description : Option String
deriving Repr, DecidableEq

/-- `packageJson.name || 'unknown-pilet'` (JS falsiness: absent or empty). -/
def nameOrDefault : Option String → String
  | some n => if n == "" then "unknown-pilet" else n
  | none => "unknown-pilet"

/-- `packageJson.version || '1.0.0'` (JS falsiness: absent or empty). -/
def versionOrDefault : Option String → String
  | some v => if v == "" then "1.0.0" else v
  | none => "1.0.0"

/-- `extractPackageInfo`: creates a scratch directory, extracts the archive
into it, reads `package.json` at the root and then in each immediate
subdirectory (first found wins); `fs.rmSync` removes the scratch directory only
on the return paths, while a throw from `tar.x` or `JSON.parse` propagates
through the catch block without any cleanup.  The second component records
whether the scratch directory is still on disk after the call. -/
def extractPackageInfo (a : ArchiveContent) : Except String PkgInfo × Bool :=
  if !a.readable then
    (.error "Failed to extract package info: tar extraction failed", true)
  else
    match a.root with
    | .fields n v d => (.ok ⟨nameOrDefault n, versionOrDefault v, d⟩, false)
    | .malformed => (.error "Failed to extract package info: unexpected token in JSON", true)
    | .missing =>
      match a.subdirs.find? hasManifest with
      | some (.fields n v d) => (.ok ⟨nameOrDefault n, versionOrDefault v, d⟩, false)
      | some .malformed =>
        (.error "Failed to extract package info: unexpected token in JSON", true)
      | some .missing => (.ok ⟨"unknown-pilet", "1.0.0", none⟩, false)
      | none => (.ok ⟨"unknown-pilet", "1.0.0", none⟩, false)

/-! ## The upload route (`POST /upload` in `routes/packages.ts`) -/

/-- `a.includes(b)` on char lists: `b` occurs as a contiguous run in `a`. -/
def chListStartsWith : List Char → List Char → Bool
  | [], _ => true
  | _ :: _, [] => false
  | a :: as, b :: bs => a == b && chListStartsWith as bs

/-- Auxiliary scan for `strContains`. -/
def chListContains (pat : List Char) : List Char → Bool
  | [] => pat.isEmpty
  | c :: cs => chListStartsWith pat (c :: cs) || chListContains pat cs

/-- JS `String.prototype.includes`. -/
def strContains (s pat : String) : Bool := chListContains pat.data s.data

/-- The parts of the upload request inspected by the fresh-publish detection:
the `fresh` query and body values (a string when present), the
`x-piral-fresh` and `fresh` headers, the request URL and method, and the
`user-agent` and `referer` headers. -/
structure UploadReq where
  queryFresh : Option String
  bodyFresh : Option String
  headerXPiralFresh : Option String
  headerFresh : Option String
  url : String
  method : String
  userAgent : Option String
  referer : Option String
deriving Repr, DecidableEq

/-- Fresh-publish intent detection from `POST /upload`, translated check by
check: explicit query/body/header flags, `fresh`/`overwrite` in the URL, the
piral-cli user-agent heuristic, and the second "smart detection" heuristic
that enables fresh mode whenever a `piral-cli/http.node` client uploads to an
existing package. -/
def detectFresh (s : Reg) (req : UploadReq) (pkgName : String) : Bool :=
  let fresh := false
  let fresh := if req.queryFresh == some "true" then true else fresh
  let fresh := if req.bodyFresh == some "true" then true else fresh
  let fresh :=
    if req.headerXPiralFresh == some "true" || req.headerXPiralFresh == some "fresh"
        || req.headerFresh == some "true" || req.headerFresh == some "fresh" then
      true else fresh
  let fresh :=
    if strContains req.url "fresh" || strContains req.url "overwrite" then true else fresh
  let fresh :=
    match req.userAgent with
    | some ua =>
      if strContains ua "piral-cli" &&
          (strContains ua "piral-cli/http.node" &&
            (strContains (req.referer.getD "") "fresh" ||
              (strContains req.url "upload" && req.method == "POST"))) then
        true
      else fresh
    | none => fresh
  match req.userAgent with
  | some ua =>
    if strContains ua "piral-cli/http.node" then
      if !fresh && req.method == "POST" && strContains req.url "/upload" then
        if (PackageModel.findByName s pkgName).isSome then true else fresh
      else fresh
    else fresh
  | none => fresh

/-- `packageInfo.description || ` placeholder, for the created package. -/
def pkgDescription (info : PkgInfo) : String :=
  match info.description with
  | some d => if d == "" then info.name ++ " - Piral microfrontend component" else d
  | none => info.name ++ " - Piral microfrontend component"

/-- Shared tail of the upload handler: `versionModel.create` with the uploaded
file; on a thrown error the outer catch removes the uploaded file. -/
def uploadFinish (s : Reg) (pkg : PkgRow) (info : PkgInfo) (tempFile : String)
    (tempSize : Nat) (tempHash : String) : Reg × Except AppErr (PkgRow × VersionRow) :=
  match VersionModel.create s pkg.id
      (if info.version == "" then "1.0.0" else info.version)
      (some "Uploaded via Piral CLI") false (some tempFile) (some tempSize)
      (some tempHash) with
  | .error e => ({ s with files := s.files.erase tempFile }, .error ⟨e, 500⟩)
  | .ok (s', v) => (s', .ok (pkg, v))

/-- The Piral-CLI upload endpoint `POST /upload`, from the point where multer
has written the uploaded file to `tempFile` and `extractPackageInfo` returned
`info`: fresh detection, find-or-create of the package, the version-conflict
check (cleanup + 409 without fresh intent; delete-then-recreate with it), and
the error-path cleanup of the uploaded file. -/
def uploadRoute (s : Reg) (req : UploadReq) (info : PkgInfo) (tempFile : String)
    (tempSize : Nat) (tempHash : String) : Reg × Except AppErr (PkgRow × VersionRow) :=
  let s0 : Reg := { s with files := s.files ++ [tempFile] }
  let fresh := detectFresh s0 req info.name
  let (s1, pkg) :=
    match PackageModel.findByName s0 info.name with
    | some p => (s0, p)
    | none =>
      PackageModel.create s0 info.name (some (pkgDescription info))
        "system@piral-feed-service.local" "system" true
  match VersionModel.findByPackageAndVersion s1 pkg.id info.version with
  | some existing =>
    if !fresh then
      ({ s1 with files := s1.files.erase tempFile },
        .error ⟨"Version " ++ info.version ++ " already exists for package " ++
          info.name ++ ". Use --fresh to overwrite.", 409⟩)
    else
      let s2 :=
        match existing.filePath with
        | some fp => { s1 with files := s1.files.erase fp }
        | none => s1
      match VersionModel.del s2 existing.id with
      | .error e => ({ s2 with files := s2.files.erase tempFile }, .error ⟨e, 500⟩)
      | .ok (s3, _) => uploadFinish s3 pkg info tempFile tempSize tempHash
  | none => uploadFinish s1 pkg info tempFile tempSize tempHash

/-! ## The version routes (`routes/versions.ts`)

The routes below are modelled for a request that passes authentication and
package-ownership checks (a denied request leaves the state unchanged and is
irrelevant to the claims). -/

/-- `POST /:packageName` (create a version): multer stores the optional file,
the package is resolved, the version-conflict check runs, and
`versionModel.create` inserts the row. -/
def createVersionRoute (s : Reg) (pkgName version : String) (changelog : Option String)
    (isDeprecated : Bool) (file : Option (String × Nat × String)) :
    Reg × Except AppErr VersionRow :=
  let s0 : Reg :=
    match file with
    | some (fp, _, _) => { s with files := s.files ++ [fp] }
    | none => s
  let cleanup : Reg → Reg := fun t =>
    match file with
    | some (fp, _, _) => { t with files := t.files.erase fp }
    | none => t
  match PackageModel.findByName s0 pkgName with
  | none => (cleanup s0, .error ⟨"Package not found", 404⟩)
  | some pkg =>
    match VersionModel.findByPackageAndVersion s0 pkg.id version with
    | some _ => (cleanup s0, .error ⟨"Version already exists", 409⟩)
    | none =>
      match VersionModel.create s0 pkg.id version changelog isDeprecated
          (file.map fun f => f.1) (file.map fun f => f.2.1) (file.map fun f => f.2.2) with
      | .error e => (s0, .error ⟨e, 500⟩)
      | .ok (s', v) => (s', .ok v)

/-- `PUT /:packageName/:version`: `versionModel.update` with the body's
`changelog` and `isDeprecated`; never touches `is_latest`. -/
def updateVersionRoute (s : Reg) (pkgName version : String) (changelog : Option String)
    (isDeprecated : Bool) : Reg × Except AppErr VersionRow :=
  match PackageModel.findByName s pkgName with
  | none => (s, .error ⟨"Package not found", 404⟩)
  | some pkg =>
    match VersionModel.findByPackageAndVersion s pkg.id version with
    | none => (s, .error ⟨"Version not found", 404⟩)
    | some vi =>
      let upd := fun (w : VersionRow) =>
        if w.id == vi.id then
          { w with changelog := changelog, isDeprecated := isDeprecated,
                   updatedAt := s.clock }
        else w
      ({ s with vers := s.vers.map upd }, .ok (upd vi))

/-- `DELETE /:packageName/:version`: resolves the version, removes its artifact
file from disk, then calls `versionModel.delete` (whose thrown guard error
propagates after the file is already gone). -/
def deleteVersionRoute (s : Reg) (pkgName version : String) : Reg × Except AppErr Unit :=
  match PackageModel.findByName s pkgName with
  | none => (s, .error ⟨"Package not found", 404⟩)
  | some pkg =>
    match VersionModel.findByPackageAndVersion s pkg.id version with
    | none => (s, .error ⟨"Version not found", 404⟩)
    | some vi =>
      let s2 :=
        match vi.filePath with
        | some fp => { s with files := s.files.erase fp }
        | none => s
      match VersionModel.del s2 vi.id with
      | .error e => (s2, .error ⟨e, 500⟩)
      | .ok (s3, true) => (s3, .ok ())
      | .ok (s3, false) => (s3, .error ⟨"Failed to delete version", 500⟩)

/-- `POST /:packageName/:version/latest`: resolves the version and calls
`versionModel.setLatest` (whose transaction commits even when the target
update matches no row; the route then reports 500). -/
def setLatestRoute (s : Reg) (pkgName version : String) : Reg × Except AppErr Unit :=
  match PackageModel.findByName s pkgName with
  | none => (s, .error ⟨"Package not found", 404⟩)
  | some pkg =>
    match VersionModel.findByPackageAndVersion s pkg.id version with
    | none => (s, .error ⟨"Version not found", 404⟩)
    | some vi =>
      match VersionModel.setLatest s pkg.id vi.id with
      | (s', true) => (s', .ok ())
      | (s', false) => (s', .error ⟨"Failed to set version as latest", 500⟩)

/-- The response of a successful artifact download: attachment filename,
streamed file path and advertised content length. -/
structure DownloadResp where
  filename : String
  path : String
  contentLength : Nat
deriving Repr, DecidableEq

/-- `GET /:packageName/:version/download`: resolves package and version,
checks the artifact file exists, `await`s `downloadModel.create` (NOT wrapped
in try/catch: `recordOk = false` models a failed insert, which rejects the
whole handler), then streams the file.  Exactly one event row is appended
before the stream starts. -/
def downloadRoute (s : Reg) (pkgName version ip ua : String) (recordOk : Bool) :
    Reg × Except AppErr DownloadResp :=
  match PackageModel.findByName s pkgName with
  | none => (s, .error ⟨"Package not found", 404⟩)
  | some pkg =>
    match VersionModel.findByPackageAndVersion s pkg.id version with
    | none => (s, .error ⟨"Version not found", 404⟩)
    | some vi =>
      match vi.filePath with
      | none => (s, .error ⟨"Package file not found", 404⟩)
      | some fp =>
        if fp ∈ s.files then
          if recordOk then
            let row : DownloadRow :=
              { id := s.nextId, versionId := vi.id, packageId := pkg.id,
                version := vi.version, ipAddress := ip, userAgent := some ua,
                downloadedAt := (s.clock : Int) }
            ({ s with downloads := s.downloads ++ [row], nextId := s.nextId + 1,
                      clock := s.clock + 1 },
              .ok ⟨pkgName ++ "-" ++ version ++ ".tgz", fp, vi.fileSize.getD 0⟩)
          else
            (s, .error ⟨"insert into downloads failed", 500⟩)
        else
          (s, .error ⟨"Package file not found", 404⟩)

/-- Number of versions of a package: `countP` over the `versions` table. -/
def versionCount (s : Reg) (packageId : Nat) : Nat :=
  s.vers.countP fun v => v.packageId == packageId

/-- Number of versions of a package flagged `isLatest`. -/
def latestCount (s : Reg) (packageId : Nat) : Nat :=
  s.vers.countP fun v => v.packageId == packageId && v.isLatest

/-! ## The semantic-version comparator

`Helpers.compareVersions` delegates to `semver.compare` of the npm `semver`
package.  The precedence algorithm of SemVer 2.0.0 (which that library
implements) is embedded below for the version grammar the service accepts
(`\d+\.\d+\.\d+(-.+)?`; build metadata is rejected by the service's own
validation schema and is outside the model).  `semver.compare` throws a
`TypeError` on a string outside the grammar; this is the `none` result. -/

/-- A prerelease identifier: purely numeric identifiers compare numerically
and sort below alphanumeric ones, which compare by their character codes. -/
inductive PreId
  | num (n : Nat)
  | alnum (cs : List Nat)
deriving Repr, DecidableEq

/-- Parsed precedence data of a semantic version; `rel = []` means no
prerelease part. -/
structure Semver where
  major : Nat
  minor : Nat
  patch : Nat
  rel : List PreId
deriving Repr, DecidableEq

/-- Three-way comparison of naturals. -/
def natCmp (a b : Nat) : Ordering :=
  if a < b then .lt else if b < a then .gt else .eq

/-- Lexicographic comparison of code lists (ASCII order on identifiers). -/
def listNatCmp : List Nat → List Nat → Ordering
  | [], [] => .eq
  | [], _ :: _ => .lt
  | _ :: _, [] => .gt
  | a :: as, b :: bs => (natCmp a b).then (listNatCmp as bs)

/-- SemVer comparison of single prerelease identifiers. -/
def preIdCmp : PreId → PreId → Ordering
  | .num a, .num b => natCmp a b
  | .num _, .alnum _ => .lt
  | .alnum _, .num _ => .gt
  | .alnum a, .alnum b => listNatCmp a b

/-- SemVer comparison of prerelease identifier lists: field by field, a strict
prefix sorting first. -/
def preListCmp : List PreId → List PreId → Ordering
  | [], [] => .eq
  | [], _ :: _ => .lt
  | _ :: _, [] => .gt
  | a :: as, b :: bs => (preIdCmp a b).then (preListCmp as bs)

/-- SemVer comparison of the prerelease parts of two versions: a version
without a prerelease part sorts above any version with one. -/
def relCmp : List PreId → List PreId → Ordering
  | [], [] => .eq
  | [], _ :: _ => .gt
  | _ :: _, [] => .lt
  | a :: as, b :: bs => preListCmp (a :: as) (b :: bs)

/-- SemVer 2.0.0 precedence: major, minor, patch, then the prerelease part. -/
def semverCmp (a b : Semver) : Ordering :=
  (natCmp a.major b.major).then ((natCmp a.minor b.minor).then
    ((natCmp a.patch b.patch).then (relCmp a.rel b.rel)))

/-- Split a char list at every occurrence of `sep` (at least one part). -/
def splitOnCh (sep : Char) : List Char → List (List Char)
  | [] => [[]]
  | c :: cs =>
    if c == sep then [] :: splitOnCh sep cs
    else
      match splitOnCh sep cs with
      | [] => [[c]]
      | x :: xs => (c :: x) :: xs

/-- Split a char list at the first occurrence of `sep`, if any. -/
def splitFirstCh (sep : Char) : List Char → List Char × Option (List Char)
  | [] => ([], none)
  | c :: cs =>
    if c == sep then ([], some cs)
    else
      let r := splitFirstCh sep cs
      (c :: r.1, r.2)

/-- A numeric component of the version core: digits only, no leading zero. -/
def parseNumId (cs : List Char) : Option Nat :=
  match cs with
  | [] => none
  | '0' :: _ :: _ => none
  | _ =>
    if cs.all Char.isDigit then
      some (cs.foldl (fun acc c => acc * 10 + (c.toNat - 48)) 0)
    else none

/-- A character allowed in a prerelease identifier. -/
def isIdentCh (c : Char) : Bool := c.isDigit || c.isAlpha || c == '-'

/-- Parse one prerelease identifier (numeric identifiers may not have leading
zeros; alphanumeric ones keep their character codes). -/
def parsePreId (cs : List Char) : Option PreId :=
  match cs with
  | [] => none
  | _ =>
    if cs.all Char.isDigit then
      match cs with
      | '0' :: _ :: _ => none
      | _ => some (.num (cs.foldl (fun acc c => acc * 10 + (c.toNat - 48)) 0))
    else if cs.all isIdentCh then some (.alnum (cs.map Char.toNat))
    else none

/-- Parse a semantic-version string into its precedence data. -/
def parseSemver (s : String) : Option Semver :=
  let p := splitFirstCh '-' s.data
  match splitOnCh '.' p.1 with
  | [a, b, c] =>
    match parseNumId a, parseNumId b, parseNumId c with
    | some ma, some mi, some pa =>
      match p.2 with
      | none => some ⟨ma, mi, pa, []⟩
      | some r =>
        match (splitOnCh '.' r).mapM parsePreId with
        | some ids => some ⟨ma, mi, pa, ids⟩
        | none => none
    | _, _, _ => none
  | _ => none

/-- `Helpers.compareVersions` = `semver.compare`: `.lt`/`.eq`/`.gt` stand for
the library's `-1`/`0`/`1`, and `none` for the `TypeError` it throws on an
invalid version string. -/
def compareVersions (a b : String) : Option Ordering := do
  let x ← parseSemver a
  let y ← parseSemver b
  some (semverCmp x y)

/-! ## The feed synthesizer (`routes/feed.ts`) -/

/-- `getLatestVersion(versions)?.version || '0.0.0'`, the latest-version
string reported by the compact feed, the detailed feed and the npm document. -/
def latestOrPlaceholder (versions : List VersionRow) : String :=
  match VersionModel.getLatestVersion versions with
  | none => "0.0.0"
  | some v => if v.version == "" then "0.0.0" else v.version

/-- One entry of the compact `GET /api/feed/pilets` feed. -/
structure CompactFeedItem where
  name : String
  version : String
  description : Option String
  author : String
  link : String
  created : Nat
  updated : Nat
deriving Repr, DecidableEq

/-- The compact feed entry built for one package. -/
def compactFeedItem (s : Reg) (proto host : String) (pkg : PkgRow) : CompactFeedItem :=
  let versions := VersionModel.findByPackageId s pkg.id
  { name := pkg.name, version := latestOrPlaceholder versions,
    description := pkg.description, author := pkg.author,
    link := proto ++ "://" ++ host ++ "/api/feed/" ++ pkg.name,
    created := pkg.createdAt, updated := pkg.updatedAt }

/-- Generic insertion step for a JS `Array.prototype.sort(comparator)` model:
the result is ascending with respect to the comparator. -/
def insertByCmp (f : α → α → Ordering) (x : α) : List α → List α
  | [] => [x]
  | y :: ys => if f x y == .gt then y :: insertByCmp f x ys else x :: y :: ys

/-- JS `Array.prototype.sort(comparator)` modelled as an insertion sort. -/
def sortByCmp (f : α → α → Ordering) (l : List α) : List α :=
  l.foldr (insertByCmp f) []

/-- `ORDER BY updated_at DESC` on packages, as a comparator. -/
def pkgUpdatedDescCmp (p q : PkgRow) : Ordering := natCmp q.updatedAt p.updatedAt

/-- `packageModel.findAll(100, 0, { isPublic: true })` as used by the compact
feed: public packages ordered by `updated_at DESC`, first 100 rows. -/
def findAllPublic (s : Reg) : List PkgRow :=
  (sortByCmp pkgUpdatedDescCmp (s.pkgs.filter fun p => p.isPublic)).take 100

/-- `GET /api/feed/pilets`: one compact entry per listed public package. -/
def compactFeed (s : Reg) (proto host : String) : List CompactFeedItem :=
  (findAllPublic s).map (compactFeedItem s proto host)

/-- One version entry of the detailed per-package feed. -/
structure FeedVersionOut where
  version : String
  changelog : Option String
  isDeprecated : Bool
  isLatest : Bool
  createdAt : Nat
  downloadUrl : String
  size : Option Nat
  checksum : Option String
deriving Repr, DecidableEq

/-- Projection of a version row to its detailed-feed entry. -/
def toFeedVersion (proto host name : String) (v : VersionRow) : FeedVersionOut :=
  { version := v.version, changelog := v.changelog, isDeprecated := v.isDeprecated,
    isLatest := v.isLatest, createdAt := v.createdAt,
    downloadUrl := proto ++ "://" ++ host ++ "/api/versions/" ++ name ++ "/" ++
      v.version ++ "/download",
    size := v.fileSize, checksum := v.checksum }

/-- The comparator `(a, b) => Helpers.compareVersions(b.version, a.version)`
passed to the feed's sort.  On version strings outside the grammar the real
comparator throws and the request fails; the `.eq` fallback is never reached
under the validity hypotheses of the theorems below. -/
def feedCmp (a b : FeedVersionOut) : Ordering :=
  (compareVersions b.version a.version).getD .eq

/-- The detailed feed document of `GET /api/feed/:name`. -/
structure FeedInfo where
  name : String
  description : Option String
  versions : List FeedVersionOut
  latest : String
  author : String
  createdAt : Nat
  updatedAt : Nat
deriving Repr, DecidableEq

/-- `GET /api/feed/:name` for an unauthenticated caller: resolves the package,
projects every version to its feed entry, sorts by semantic precedence
descending, and reports `latest` from `getLatestVersion`. -/
def detailedFeed (s : Reg) (proto host name : String) : Except AppErr FeedInfo :=
  match PackageModel.findByName s name with
  | none => .error ⟨"Package not found", 404⟩
  | some pkg =>
    if !pkg.isPublic then .error ⟨"Package not found", 404⟩
    else
      let versions := VersionModel.findByPackageId s pkg.id
      .ok { name := pkg.name, description := pkg.description,
            versions := sortByCmp feedCmp (versions.map (toFeedVersion proto host name)),
            latest := latestOrPlaceholder versions, author := pkg.author,
            createdAt := pkg.createdAt, updatedAt := pkg.updatedAt }

/-! ## The download recorder's aggregate statistics (`DownloadModel`) -/

/-- The aggregate document of `DownloadModel.getOverallStats`. -/
structure OverallStats where
  totalDownloads : Nat
  totalPackages : Nat
  totalVersions : Nat
  downloadsToday : Nat
  downloadsThisWeek : Nat
  downloadsThisMonth : Nat
deriving Repr, DecidableEq

/-- Milliseconds per day, as in `7 * 24 * 60 * 60 * 1000`. -/
def msPerDay : Int := 86400000

/-- `DownloadModel.getOverallStats`: every figure is computed by a `COUNT`
over the tables at query time; the three windowed counts filter the download
log by timestamp.  `todayStart` models `new Date(y, m, d).getTime()` (local
midnight of the current day) and `monthStart` models
`new Date(y, m, 1).getTime()` (midnight of the first of the current month);
the SQL comparison of ISO-8601 strings is order-isomorphic to comparing the
underlying times. -/
def getOverallStats (s : Reg) (todayStart monthStart : Int) : OverallStats :=
  { totalDownloads := s.downloads.length,
    totalPackages := s.pkgs.length,
    totalVersions := s.vers.length,
    downloadsToday := (s.downloads.filter fun d => todayStart ≤ d.downloadedAt).length,
    downloadsThisWeek :=
      (s.downloads.filter fun d => todayStart - 7 * msPerDay ≤ d.downloadedAt).length,
    downloadsThisMonth := (s.downloads.filter fun d => monthStart ≤ d.downloadedAt).length }

/-- Modelled from the spec: "downloadsThisWeek counts events in the current
ISO week".  The current ISO week starts at the most recent Monday midnight,
`todayStart - weekday * msPerDay` where `weekday` is today's ISO weekday index
(Monday = 0, …, Sunday = 6). -/
def specDownloadsThisWeek (s : Reg) (todayStart : Int) (weekday : Nat) : Nat :=
  (s.downloads.filter fun d => todayStart - weekday * msPerDay ≤ d.downloadedAt).length

/-! ## The reachable committed states (for the latest-version invariant) -/

/-- `POST /api/packages` (create package): rejects a duplicate name, then
inserts the package row.  (When an archive is attached the route additionally
runs the same `versionModel.create` as the version-creation route, on the
freshly created empty package.) -/
def createPackageRoute (s : Reg) (name : String) (description : Option String)
    (author authorId : String) (isPublic : Bool) : Reg × Except AppErr PkgRow :=
  match PackageModel.findByName s name with
  | some _ => (s, .error ⟨"Package with this name already exists", 409⟩)
  | none =>
    let r := PackageModel.create s name description author authorId isPublic
    (r.1, .ok r.2)

/-- One committed operation of the registry engine, at the request level:
package creation, upload (plain or fresh publish), version creation,
deprecation update, deletion, promotion to latest, and download. -/
inductive Op
  | createPackage (name : String) (description : Option String)
      (author authorId : String) (isPublic : Bool)
  | upload (req : UploadReq) (info : PkgInfo) (tempFile : String)
      (tempSize : Nat) (tempHash : String)
  | createVersion (pkgName version : String) (changelog : Option String)
      (isDeprecated : Bool) (file : Option (String × Nat × String))
  | updateVersion (pkgName version : String) (changelog : Option String)
      (isDeprecated : Bool)
  | deleteVersion (pkgName version : String)
  | promote (pkgName version : String)
  | download (pkgName version ip ua : String) (recordOk : Bool)

/-- The committed state after one operation (errors roll back or never touch
the tables; the committed state is the first component of each route). -/
def stepOp (s : Reg) : Op → Reg
  | .createPackage n d a ai pub => (createPackageRoute s n d a ai pub).1
  | .upload req info tf ts th => (uploadRoute s req info tf ts th).1
  | .createVersion pn v c dep f => (createVersionRoute s pn v c dep f).1
  | .updateVersion pn v c dep => (updateVersionRoute s pn v c dep).1
  | .deleteVersion pn v => (deleteVersionRoute s pn v).1
  | .promote pn v => (setLatestRoute s pn v).1
  | .download pn v ip ua ok => (downloadRoute s pn v ip ua ok).1

/-- The committed state reached by a sequence of operations from the freshly
created database. -/
def runOps (ops : List Op) : Reg := ops.foldl stepOp Reg.init

/-! ## Concrete sample fixtures (used by witnesses and counterexamples) -/

/-- A package row named `a` as the upload route creates it. -/
def pkgA : PkgRow :=
  { id := 0, name := "a", description := some "a - Piral microfrontend component",
    author := "system@piral-feed-service.local", authorId := "system",
    isPublic := true, createdAt := 0, updatedAt := 0 }

/-- Version `1.0.0` of `a`, flagged latest (sole-version state). -/
def verA1L : VersionRow :=
  { id := 1, packageId := 0, version := "1.0.0", changelog := none, isLatest := true,
    isDeprecated := false, filePath := some "f1", fileSize := some 10,
    checksum := some "h1", createdAt := 1, updatedAt := 1 }

/-- Version `1.0.0` of `a`, not latest (two-version state). -/
def verA1 : VersionRow := { verA1L with isLatest := false }

/-- Version `1.1.0` of `a`, flagged latest, created after `1.0.0`. -/
def verA2 : VersionRow :=
  { id := 2, packageId := 0, version := "1.1.0", changelog := none, isLatest := true,
    isDeprecated := false, filePath := some "f2", fileSize := some 11,
    checksum := some "h2", createdAt := 2, updatedAt := 2 }

/-- Registry with package `a` and its sole version `1.0.0` (latest). -/
def regOne : Reg := ⟨[pkgA], [verA1L], [], ["f1"], 2, 2⟩

/-- Registry with package `a`, versions `1.0.0` (not latest) and `1.1.0`
(latest, most recently created). -/
def regTwo : Reg := ⟨[pkgA], [verA1, verA2], [], ["f1", "f2"], 3, 3⟩

/-- An upload request from a generic client with no fresh signal anywhere. -/
def reqPlain : UploadReq :=
  { queryFresh := none, bodyFresh := none, headerXPiralFresh := none,
    headerFresh := none, url := "/api/packages/upload", method := "POST",
    userAgent := some "curl/7.68.0", referer := none }

/-- The same request sent by the Piral CLI (no fresh signal anywhere either). -/
def reqPiral : UploadReq := { reqPlain with userAgent := some "piral-cli/http.node" }

/-- The same request with the explicit `?fresh=true` query flag. -/
def reqFreshQ : UploadReq := { reqPlain with queryFresh := some "true" }

/-- Extracted metadata of an archive for `a@1.0.0`. -/
def infoA : PkgInfo := { name := "a", version := "1.0.0", description := none }

/-- Extracted metadata of an archive for `a@1.1.0`. -/
def infoA11 : PkgInfo := { name := "a", version := "1.1.0", description := none }

/-- A registry whose download log holds one event 5 days before `todayStart = 0`
(epoch midnight, Thursday 1970-01-01, ISO weekday index 3). -/
def regDl : Reg :=
  ⟨[], [], [⟨0, 0, 0, "1.0.0", "ip", none, -432000000⟩], [], 1, 1⟩

/-- A request that carries none of the fresh-publish signals the upload
handler inspects: no explicit query/body/header flag, no `fresh`/`overwrite`
in the URL, and a user-agent that does not contain `piral-cli/http.node`
(which would trigger the compatibility heuristics). -/
def NoFreshSignal (req : UploadReq) : Prop :=
  req.queryFresh ≠ some "true" ∧ req.bodyFresh ≠ some "true" ∧
  req.headerXPiralFresh ≠ some "true" ∧ req.headerXPiralFresh ≠ some "fresh" ∧
  req.headerFresh ≠ some "true" ∧ req.headerFresh ≠ some "fresh" ∧
  strContains req.url "fresh" = false ∧ strContains req.url "overwrite" = false ∧
  (∀ ua, req.userAgent = some ua → strContains ua "piral-cli/http.node" = false)

/-- Registry with package `a` and zero versions (e.g. right after its sole
version was deleted). -/
def regEmptyPkg : Reg := ⟨[pkgA], [], [], [], 1, 1⟩

/-- The per-package latest invariant over the committed tables: every package
with at least one version has exactly one row flagged latest. -/
def LatestOk (s : Reg) : Prop :=
  ∀ pid, 0 < versionCount s pid → latestCount s pid = 1

/-- Well-formedness of the generated ids: pairwise distinct and below the
counter (as produced by `Helpers.generateId`, modelled by the counter). -/
def IdsOk (s : Reg) : Prop :=
  (s.vers.map fun v => v.id).Nodup ∧ ∀ v ∈ s.vers, v.id < s.nextId

/-- The induction invariant for reachable committed states. -/
def Inv (s : Reg) : Prop := IdsOk s ∧ LatestOk s

/-- Strict semantic precedence on parsed versions (`semver.compare < 0`). -/
def semverLt (a b : Semver) : Prop := semverCmp a b = .lt

/-- A feed version list sorted by semantic precedence descending: no entry is
strictly below a later entry. -/
def SortedBySemverDesc (l : List FeedVersionOut) : Prop :=
  l.Pairwise fun a b => compareVersions a.version b.version ≠ some .lt

/-! ### Comparator infrastructure for the order-theoretic proofs -/

/-- A comparator that decides equality, is symmetric under `swap`, and whose
strict part is transitive — the data of a strict total order. -/
def CmpLawful {α : Type} (f : α → α → Ordering) : Prop :=
  (∀ a b, f a b = .eq ↔ a = b) ∧ (∀ a b, (f a b).swap = f b a) ∧
  (∀ a b c, f a b = .lt → f b c = .lt → f a c = .lt)

/-- Generic lexicographic list comparison (shape of `listNatCmp` and
`preListCmp`). -/
def listCmp {α : Type} (f : α → α → Ordering) : List α → List α → Ordering
  | [], [] => .eq
  | [], _ :: _ => .lt
  | _ :: _, [] => .gt
  | a :: as, b :: bs => (f a b).then (listCmp f as bs)

/-- Generic lexicographic pair comparison. -/
def prodCmp {α β : Type} (f : α → α → Ordering) (g : β → β → Ordering)
    (x y : α × β) : Ordering :=
  (f x.1 y.1).then (g x.2 y.2)

/-- The precedence key of a version: `semverCmp` is definitionally the
lexicographic comparison of these keys. -/
def semverKey (a : Semver) : Nat × (Nat × (Nat × List PreId)) :=
  (a.major, a.minor, a.patch, a.rel)

/-! ## Basic lemmas about rows, counts and the sorts -/

open VersionModel

theorem clearLatestRow_id (pid c : Nat) (w : VersionRow) :
    (clearLatestRow pid c w).id = w.id := by
  unfold clearLatestRow; split <;> rfl

theorem clearLatestRow_packageId (pid c : Nat) (w : VersionRow) :
    (clearLatestRow pid c w).packageId = w.packageId := by
  unfold clearLatestRow; split <;> rfl

theorem clearLatestRow_version (pid c : Nat) (w : VersionRow) :
    (clearLatestRow pid c w).version = w.version := by
  unfold clearLatestRow; split <;> rfl

theorem clearLatestRow_not_latest (pid c : Nat) (w : VersionRow) (h : w.packageId = pid) :
    (clearLatestRow pid c w).isLatest = false := by
  unfold clearLatestRow; simp [h]

theorem clearLatestRow_ne (pid c : Nat) (w : VersionRow) (h : ¬w.packageId = pid) :
    clearLatestRow pid c w = w := by
  unfold clearLatestRow; simp [h]

/-- Splitting a `countP` along a second predicate. -/
theorem countP_split (l : List VersionRow) (p q : VersionRow → Bool) :
    l.countP p = (l.countP fun w => p w && q w) + (l.countP fun w => p w && !q w) := by
  induction l with
  | nil => rfl
  | cons a t ih =>
    simp only [List.countP_cons]
    cases hp : p a <;> cases hq : q a <;> simp [hp, hq] <;> omega

/-- With pairwise-distinct ids, the rows carrying the id of a member `v` are
exactly `[v]`. -/
theorem filter_id_eq_singleton {l : List VersionRow}
    (h : (l.map fun v => v.id).Nodup) {v : VersionRow} (hv : v ∈ l) :
    l.filter (fun w => w.id == v.id) = [v] := by
  induction l with
  | nil => cases hv
  | cons a t ih =>
    simp only [List.map_cons, List.nodup_cons] at h
    rcases List.mem_cons.mp hv with rfl | hvt
    · have ht : t.filter (fun w => w.id == v.id) = [] := by
        rw [List.filter_eq_nil_iff]
        intro w hw hww
        exact h.1 (by
          simp only [beq_iff_eq] at hww
          exact hww ▸ List.mem_map_of_mem (fun v => v.id) hw)
      simp [List.filter_cons, ht]
    · have hne : ¬(a.id == v.id) = true := by
        simp only [beq_iff_eq]
        intro he
        exact h.1 (he ▸ List.mem_map_of_mem (fun v => v.id) hvt)
      simp [List.filter_cons, hne, ih h.2 hvt]

/-- With pairwise-distinct ids, counting rows with the id of a member `v` and
an extra property gives the indicator of the property at `v`. -/
theorem countP_id_and {l : List VersionRow}
    (h : (l.map fun v => v.id).Nodup) {v : VersionRow} (hv : v ∈ l)
    (p : VersionRow → Bool) :
    l.countP (fun w => w.id == v.id && p w) = if p v then 1 else 0 := by
  have h1 : l.countP (fun w => w.id == v.id && p w) =
      (l.filter (fun w => w.id == v.id)).countP p := by
    rw [List.countP_filter]
    refine List.countP_congr fun w _ => ?_
    constructor <;> intro hw <;> simp only [Bool.and_eq_true] at hw ⊢ <;>
      exact ⟨hw.2, hw.1⟩
  rw [h1, filter_id_eq_singleton h hv]
  cases hp : p v <;> simp [List.countP_cons, hp]

theorem insertDesc_length (v : VersionRow) (l : List VersionRow) :
    (insertDesc v l).length = l.length + 1 := by
  induction l with
  | nil => rfl
  | cons a t ih => unfold insertDesc; split <;> simp [ih]

theorem insertDesc_countP (v : VersionRow) (l : List VersionRow) (p : VersionRow → Bool) :
    (insertDesc v l).countP p = (l.countP p) + (if p v then 1 else 0) := by
  induction l with
  | nil => simp [insertDesc, List.countP_cons]
  | cons a t ih =>
    unfold insertDesc
    split <;> simp [List.countP_cons, ih] <;> cases hp : p v <;> simp [hp] <;> omega

theorem sortByCreatedDesc_length (l : List VersionRow) :
    (sortByCreatedDesc l).length = l.length := by
  induction l with
  | nil => rfl
  | cons a t ih => simp [sortByCreatedDesc, List.foldr_cons] at ih ⊢; rw [insertDesc_length, ih]

theorem sortByCreatedDesc_countP (l : List VersionRow) (p : VersionRow → Bool) :
    (sortByCreatedDesc l).countP p = l.countP p := by
  induction l with
  | nil => rfl
  | cons a t ih =>
    simp only [sortByCreatedDesc, List.foldr_cons] at ih ⊢
    rw [insertDesc_countP, ih, List.countP_cons]

theorem findByPackageId_length (s : Reg) (pid : Nat) :
    (findByPackageId s pid).length = versionCount s pid := by
  rw [findByPackageId, sortByCreatedDesc_length, ← List.countP_eq_length_filter]
  rfl

theorem findByPackageId_eq_nil (s : Reg) (pid : Nat) (h : versionCount s pid = 0) :
    findByPackageId s pid = [] := by
  have := findByPackageId_length s pid
  rw [h] at this
  exact List.eq_nil_of_length_eq_zero this

theorem latestCount_le_versionCount (s : Reg) (pid : Nat) :
    latestCount s pid ≤ versionCount s pid := by
  unfold latestCount versionCount
  induction s.vers with
  | nil => simp
  | cons a t ih =>
    simp only [List.countP_cons]
    cases h1 : a.packageId == pid <;> cases h2 : a.isLatest <;> simp [h1, h2] <;> omega

/-! ## C3: version creation clears, inserts and commits atomically -/

/-- Clearing a package's rows zeroes its latest count. -/
theorem countP_map_clear (l : List VersionRow) (pid c : Nat) :
    (l.map (clearLatestRow pid c)).countP (fun v => v.packageId == pid && v.isLatest) = 0 := by
  rw [List.countP_map, List.countP_eq_zero]
  intro w _
  simp only [Function.comp_apply, Bool.and_eq_true, beq_iff_eq]
  rintro ⟨h1, h2⟩
  by_cases hw : w.packageId = pid
  · rw [clearLatestRow_not_latest pid c w hw] at h2; cases h2
  · exact hw (by rw [clearLatestRow_packageId] at h1; exact h1)

/-- Clearing one package's rows does not affect another package's counts. -/
theorem countP_map_clear_other (l : List VersionRow) (pid c pid' : Nat) (h : pid' ≠ pid) :
    (l.map (clearLatestRow pid c)).countP (fun v => v.packageId == pid' && v.isLatest) =
      l.countP (fun v => v.packageId == pid' && v.isLatest) := by
  rw [List.countP_map]
  refine List.countP_congr fun w _ => ?_
  by_cases hw : w.packageId = pid
  · have hcp : (clearLatestRow pid c w).packageId = pid := by
      rw [clearLatestRow_packageId]; exact hw
    simp only [Function.comp_apply, Bool.and_eq_true, beq_iff_eq, hcp, hw]
    constructor <;> rintro ⟨h1, -⟩ <;> exact absurd h1.symm h
  · simp only [Function.comp_apply, clearLatestRow_ne pid c w hw]

/-! ## Claim C3 -/

/-- C3: for every package and every version string not already present for
it, a successful `versionModel.create` commits — in one atomic transaction,
a single transition of the model with no observable intermediate state — a
state in which the new row has `isLatest = true`, every pre-existing row of
the same package has been cleared to `isLatest = false`, and the package has
exactly one latest version.  In particular, creating V2 after V1 makes V2
latest and V1 not-latest in the same commit. -/
theorem create_version_clears_then_inserts_atomically
    (s : Reg) (pid : Nat) (v : String) (chg : Option String) (dep : Bool)
    (fp : Option String) (fsz : Option Nat) (ck : Option String)
    (h : VersionModel.findByPackageAndVersion s pid v = none) :
    ∃ s' nv, VersionModel.create s pid v chg dep fp fsz ck = .ok (s', nv) ∧
      nv.isLatest = true ∧ nv.version = v ∧ nv.packageId = pid ∧
      s'.vers = s.vers.map (clearLatestRow pid s.clock) ++ [nv] ∧
      (∀ w ∈ s.vers, w.packageId = pid →
        (clearLatestRow pid s.clock w).isLatest = false) ∧
      latestCount s' pid = 1 := by
  have hc : VersionModel.create s pid v chg dep fp fsz ck = .ok
      ({ s with
         vers := (s.vers.map (clearLatestRow pid s.clock)) ++
           [{ id := s.nextId, packageId := pid, version := v, changelog := chg,
              isLatest := true, isDeprecated := dep, filePath := fp, fileSize := fsz,
              checksum := ck, createdAt := s.clock, updatedAt := s.clock }],
         nextId := s.nextId + 1, clock := s.clock + 1 },
       { id := s.nextId, packageId := pid, version := v, changelog := chg,
         isLatest := true, isDeprecated := dep, filePath := fp, fileSize := fsz,
         checksum := ck, createdAt := s.clock, updatedAt := s.clock }) := by
    unfold VersionModel.create
    rw [h]
  refine ⟨_, _, hc, rfl, rfl, rfl, rfl,
    fun w _ hw => clearLatestRow_not_latest _ _ _ hw, ?_⟩
  unfold latestCount
  rw [List.countP_append, countP_map_clear]
  simp

/-- Witness for C3 at a concrete input: version `1.1.0` is new for package
`a` of `regOne`, and creating it commits a single-latest state. -/
theorem create_version_clears_then_inserts_atomically_witness :
    VersionModel.findByPackageAndVersion regOne 0 "1.1.0" = none ∧
    (∃ s' nv, VersionModel.create regOne 0 "1.1.0" none false (some "f2") (some 11)
        (some "h2") = .ok (s', nv) ∧
      nv.isLatest = true ∧ nv.version = "1.1.0" ∧ nv.packageId = 0 ∧
      s'.vers = regOne.vers.map (clearLatestRow 0 regOne.clock) ++ [nv] ∧
      (∀ w ∈ regOne.vers, w.packageId = 0 →
        (clearLatestRow 0 regOne.clock w).isLatest = false) ∧
      latestCount s' 0 = 1) :=
  ⟨by decide,
    create_version_clears_then_inserts_atomically regOne 0 "1.1.0" none false
      (some "f2") (some 11) (some "h2") (by decide)⟩

/-! ## Claim C8 -/

/-- C8 counterexample: on an unreadable archive (`tar.x` throws) the call
returns an error and the scratch directory is NOT deleted — the uniquely named
scratch directory is not removed on every exit path. -/
theorem scratch_leak_on_unreadable_archive :
    extractPackageInfo ⟨false, .missing, []⟩ =
      (.error "Failed to extract package info: tar extraction failed", true) := rfl

/-- C8 amended: the scratch directory is removed on every successful return
path of the metadata extractor (including the missing-manifest default), but
it is left behind exactly when the call throws — on an unreadable archive or
an unparsable manifest JSON the catch block re-throws without cleanup. -/
theorem scratch_cleanup_iff_success (a : ArchiveContent) :
    (extractPackageInfo a).2 = !(extractPackageInfo a).1.toBool := by
  rcases a with ⟨readable, root, subdirs⟩
  cases readable
  · rfl
  · cases root
    · unfold extractPackageInfo
      simp only [Bool.not_false, if_neg]
      cases h : List.find? hasManifest subdirs with
      | none => rfl
      | some m => cases m <;> rfl
    · rfl
    · rfl

/-! ## Claim C9 -/

/-- C9 counterexample: with today being a Thursday (`todayStart = 0`, epoch
midnight 1970-01-01, ISO weekday index 3), an event 5 days old lies outside
the current ISO week (which began 3 days ago) yet `downloadsThisWeek` counts
it: the code uses a rolling 7-day window, not the ISO week. -/
theorem week_window_not_iso_week :
    (getOverallStats regDl 0 0).downloadsThisWeek = 1 ∧
      specDownloadsThisWeek regDl 0 3 = 0 := by decide

/-- C9 amended: every figure of `getOverallStats` is computed by filtering
the immutable download-event log by timestamp at query time, with no running
counters: `downloadsToday` counts events since the start of the current day
and `downloadsThisMonth` counts events since the first of the current
calendar month, but `downloadsThisWeek` counts events in the rolling 7-day
window before the start of the current day (not the current ISO week).
Appending one event to the log increments each count exactly by the event's
membership in the corresponding window. -/
theorem stats_filter_log_at_query_time (s : Reg) (todayStart monthStart : Int)
    (e : DownloadRow) :
    (getOverallStats s todayStart monthStart).totalDownloads = s.downloads.length ∧
    (getOverallStats s todayStart monthStart).downloadsToday =
      s.downloads.countP (fun d => decide (todayStart ≤ d.downloadedAt)) ∧
    (getOverallStats s todayStart monthStart).downloadsThisWeek =
      s.downloads.countP (fun d => decide (todayStart - 7 * msPerDay ≤ d.downloadedAt)) ∧
    (getOverallStats s todayStart monthStart).downloadsThisMonth =
      s.downloads.countP (fun d => decide (monthStart ≤ d.downloadedAt)) ∧
    (getOverallStats { s with downloads := s.downloads ++ [e] } todayStart
        monthStart).totalDownloads =
      (getOverallStats s todayStart monthStart).totalDownloads + 1 ∧
    (getOverallStats { s with downloads := s.downloads ++ [e] } todayStart
        monthStart).downloadsToday =
      (getOverallStats s todayStart monthStart).downloadsToday +
        (if todayStart ≤ e.downloadedAt then 1 else 0) ∧
    (getOverallStats { s with downloads := s.downloads ++ [e] } todayStart
        monthStart).downloadsThisWeek =
      (getOverallStats s todayStart monthStart).downloadsThisWeek +
        (if todayStart - 7 * msPerDay ≤ e.downloadedAt then 1 else 0) ∧
    (getOverallStats { s with downloads := s.downloads ++ [e] } todayStart
        monthStart).downloadsThisMonth =
      (getOverallStats s todayStart monthStart).downloadsThisMonth +
        (if monthStart ≤ e.downloadedAt then 1 else 0) := by
  unfold getOverallStats
  refine ⟨rfl, ?_, ?_, ?_, by simp, ?_, ?_, ?_⟩ <;>
    simp [List.countP_eq_length_filter, List.filter_append, List.filter_cons] <;>
    split <;> simp

/-! ## The creation-time sort is descending -/

theorem mem_insertDesc {v x : VersionRow} {l : List VersionRow} :
    x ∈ insertDesc v l ↔ x = v ∨ x ∈ l := by
  induction l with
  | nil => simp [insertDesc]
  | cons a t ih =>
    unfold insertDesc
    split
    · simp
    · simp only [List.mem_cons, ih]
      tauto

theorem insertDesc_pairwise {v : VersionRow} {l : List VersionRow}
    (h : l.Pairwise fun a b => b.createdAt ≤ a.createdAt) :
    (insertDesc v l).Pairwise fun a b => b.createdAt ≤ a.createdAt := by
  induction l with
  | nil => simp [insertDesc]
  | cons a t ih =>
    rcases List.pairwise_cons.mp h with ⟨ha, ht⟩
    unfold insertDesc
    split
    · rename_i hlt
      refine List.pairwise_cons.mpr ⟨?_, h⟩
      intro x hx
      rcases List.mem_cons.mp hx with rfl | hxt
      · exact le_of_lt hlt
      · exact le_trans (ha x hxt) (le_of_lt hlt)
    · rename_i hge
      refine List.pairwise_cons.mpr ⟨?_, ih ht⟩
      intro x hx
      rcases mem_insertDesc.mp hx with rfl | hxt
      · omega
      · exact ha x hxt

theorem sortByCreatedDesc_pairwise (l : List VersionRow) :
    (sortByCreatedDesc l).Pairwise fun a b => b.createdAt ≤ a.createdAt := by
  induction l with
  | nil => simp [sortByCreatedDesc]
  | cons a t ih => exact insertDesc_pairwise ih

theorem mem_sortByCreatedDesc {x : VersionRow} {l : List VersionRow} :
    x ∈ sortByCreatedDesc l ↔ x ∈ l := by
  induction l with
  | nil => simp [sortByCreatedDesc]
  | cons a t ih =>
    show x ∈ insertDesc a (sortByCreatedDesc t) ↔ _
    rw [mem_insertDesc, ih]
    simp [eq_comm]

/-- The head of the `created_at DESC` query result is a most recently created
row of the package. -/
theorem findByPackageId_head_latest_created (s : Reg) (pid : Nat) (h hd : VersionRow)
    (hh : (findByPackageId s pid).head? = some hd) :
    ∀ w ∈ s.vers, w.packageId = pid → w.createdAt ≤ hd.createdAt := by
  intro w hw hwp
  have hmem : w ∈ findByPackageId s pid := by
    rw [findByPackageId, mem_sortByCreatedDesc, List.mem_filter]
    exact ⟨hw, by simp [hwp]⟩
  have hp := sortByCreatedDesc_pairwise (s.vers.filter fun r => r.packageId == pid)
  rw [show sortByCreatedDesc (s.vers.filter fun r => r.packageId == pid) =
      findByPackageId s pid from rfl] at hp
  rcases hq : findByPackageId s pid with _ | ⟨x, xs⟩
  · rw [hq] at hmem; cases hmem
  · rw [hq] at hh hp hmem
    cases Option.some_inj.mp hh
    rcases List.mem_cons.mp hmem with rfl | htl
    · exact le_refl _
    · exact (List.pairwise_cons.mp hp).1 w htl

/-! ## Claim C10 -/

/-- C10: the latest-version resolution used by the feeds returns the row
flagged `isLatest` when `find?` locates one, otherwise the first element of
the queried list (which the `created_at DESC` query order makes a most
recently created version), and `null` exactly for the empty list; hence a
package with zero versions still appears in the compact feed and in the
detailed feed with the placeholder version string `0.0.0`. -/
theorem feed_latest_resolution_and_placeholder :
    (∀ vs : List VersionRow, getLatestVersion vs = none ↔ vs = []) ∧
    (∀ (vs : List VersionRow) (v : VersionRow),
      vs.find? (fun v => v.isLatest) = some v → getLatestVersion vs = some v) ∧
    (∀ vs : List VersionRow,
      vs.find? (fun v => v.isLatest) = none → getLatestVersion vs = vs.head?) ∧
    (∀ (s : Reg) (pid : Nat) (hd : VersionRow),
      (findByPackageId s pid).head? = some hd →
      ∀ w ∈ s.vers, w.packageId = pid → w.createdAt ≤ hd.createdAt) ∧
    (∀ (s : Reg) (proto host : String) (pkg : PkgRow), pkg ∈ findAllPublic s →
      versionCount s pkg.id = 0 →
      compactFeedItem s proto host pkg ∈ compactFeed s proto host ∧
      (compactFeedItem s proto host pkg).version = "0.0.0" ∧
      (compactFeedItem s proto host pkg).name = pkg.name) ∧
    (∀ (s : Reg) (proto host name : String) (pkg : PkgRow),
      PackageModel.findByName s name = some pkg → pkg.isPublic = true →
      versionCount s pkg.id = 0 →
      ∃ fi, detailedFeed s proto host name = .ok fi ∧ fi.latest = "0.0.0" ∧
        fi.versions = [] ∧ fi.name = pkg.name) := by
  refine ⟨?_, ?_, ?_, ?_, ?_, ?_⟩
  · intro vs
    unfold getLatestVersion
    cases hf : vs.find? (fun v => v.isLatest) with
    | some v => simp [List.ne_nil_of_mem (List.mem_of_find?_eq_some hf)]
    | none =>
      cases vs with
      | nil => simp
      | cons a t => simp
  · intro vs v hf
    unfold getLatestVersion
    rw [hf]
  · intro vs hf
    unfold getLatestVersion
    rw [hf]
  · intro s pid hd hh
    exact findByPackageId_head_latest_created s pid hd hd hh
  · intro s proto host pkg hmem hzero
    refine ⟨List.mem_map_of_mem _ hmem, ?_, rfl⟩
    unfold compactFeedItem latestOrPlaceholder
    rw [findByPackageId_eq_nil s pkg.id hzero]
    rfl
  · intro s proto host name pkg hfind hpub hzero
    have hv : findByPackageId s pkg.id = [] := findByPackageId_eq_nil s pkg.id hzero
    refine ⟨
      { name := pkg.name, description := pkg.description, versions := [],
        latest := "0.0.0", author := pkg.author, createdAt := pkg.createdAt,
        updatedAt := pkg.updatedAt }, ?_, rfl, rfl, rfl⟩
    simp only [detailedFeed, hfind, hpub, hv]
    rfl

/-- Witness for C10 at a concrete input: package `a` of `regEmptyPkg` has
zero versions and shows up in both feeds as version `0.0.0`. -/
theorem feed_latest_resolution_and_placeholder_witness :
    (pkgA ∈ findAllPublic regEmptyPkg ∧ versionCount regEmptyPkg pkgA.id = 0 ∧
      (compactFeedItem regEmptyPkg "http" "h" pkgA).version = "0.0.0") ∧
    (PackageModel.findByName regEmptyPkg "a" = some pkgA ∧
      ∃ fi, detailedFeed regEmptyPkg "http" "h" "a" = .ok fi ∧
        fi.latest = "0.0.0" ∧ fi.versions = [] ∧ fi.name = "a") :=
  ⟨⟨by decide, by decide,
    (feed_latest_resolution_and_placeholder.2.2.2.2.1 regEmptyPkg "http" "h" pkgA
      (by decide) (by decide)).2.1⟩,
   ⟨by decide, by
    rcases feed_latest_resolution_and_placeholder.2.2.2.2.2 regEmptyPkg "http" "h" "a"
      pkgA (by decide) (by decide) (by decide) with ⟨fi, h1, h2, h3, h4⟩
    exact ⟨fi, h1, h2, h3, h4⟩⟩⟩

/-! ## Claim C7 -/

/-- C7 counterexample: at a state where package `a` version `1.0.0` and its
artifact exist, a failing download-event append makes the whole request fail —
the artifact response does not complete, so the failure is not merely logged. -/
theorem download_record_failure_blocks_delivery :
    downloadRoute regOne "a" "1.0.0" "203.0.113.9" "piral-cli/1.0" false =
      (regOne, .error ⟨"insert into downloads failed", 500⟩) := rfl

/-- C7 amended: the download route appends the download event BEFORE streaming
and does not guard the append: if the append fails the request errors and no
artifact response is sent; if it succeeds, exactly one event row (for the
resolved version) is appended per download response. -/
theorem download_event_append_before_delivery
    (s : Reg) (pkgName version ip ua : String) (pkg : PkgRow) (vi : VersionRow)
    (fp : String)
    (hp : PackageModel.findByName s pkgName = some pkg)
    (hv : VersionModel.findByPackageAndVersion s pkg.id version = some vi)
    (hfp : vi.filePath = some fp) (hmem : fp ∈ s.files) :
    downloadRoute s pkgName version ip ua false =
      (s, .error ⟨"insert into downloads failed", 500⟩) ∧
    (∃ row, downloadRoute s pkgName version ip ua true =
      ({ s with
         downloads := s.downloads ++ [row], nextId := s.nextId + 1,
         clock := s.clock + 1 },
       .ok ⟨pkgName ++ "-" ++ version ++ ".tgz", fp, vi.fileSize.getD 0⟩) ∧
      row.versionId = vi.id ∧ row.packageId = pkg.id ∧ row.version = vi.version) := by
  constructor
  · simp only [downloadRoute, hp, hv, hfp]
    simp [hmem]
  · refine ⟨
      { id := s.nextId, versionId := vi.id, packageId := pkg.id,
        version := vi.version, ipAddress := ip, userAgent := some ua,
        downloadedAt := (s.clock : Int) }, ?_, rfl, rfl, rfl⟩
    simp only [downloadRoute, hp, hv, hfp]
    simp [hmem]

/-- Witness for C7 at a concrete input: `regOne` resolves `a@1.0.0` with an
existing artifact. -/
theorem download_event_append_before_delivery_witness :
    (PackageModel.findByName regOne "a" = some pkgA ∧
      VersionModel.findByPackageAndVersion regOne pkgA.id "1.0.0" = some verA1L ∧
      verA1L.filePath = some "f1" ∧ "f1" ∈ regOne.files) ∧
    downloadRoute regOne "a" "1.0.0" "203.0.113.9" "ua" false =
      (regOne, .error ⟨"insert into downloads failed", 500⟩) :=
  ⟨⟨by decide, by decide, by decide, by decide⟩,
   (download_event_append_before_delivery regOne "a" "1.0.0" "203.0.113.9" "ua"
     pkgA verA1L "f1" (by decide) (by decide) (by decide) (by decide)).1⟩

/-! ## Behaviour of `VersionModel.delete` -/

theorem length_filter_lt_of_mem_not {α : Type} {l : List α} {p : α → Bool} {x : α}
    (hx : x ∈ l) (hpx : p x = false) : (l.filter p).length < l.length := by
  have h1 : l.countP p = (l.filter p).length := List.countP_eq_length_filter ..
  have h2 := List.length_eq_countP_add_countP p l
  have h3 : 0 < l.countP (fun a => decide ¬(p a = true)) :=
    List.countP_pos_iff.mpr ⟨x, hx, by simp [hpx]⟩
  omega

/-- Removing the only row of a package (by its unique id) leaves the package
with zero versions. -/
theorem versionCount_zero_after_remove {s : Reg} {v : VersionRow}
    (hmem : v ∈ s.vers) (hc : versionCount s v.packageId = 1) :
    versionCount { s with vers := s.vers.filter fun r => !(r.id == v.id) }
      v.packageId = 0 := by
  have hsplit := countP_split s.vers (fun r => r.packageId == v.packageId)
    (fun r => r.id == v.id)
  have hpos : 0 < s.vers.countP
      (fun w => (w.packageId == v.packageId) && (w.id == v.id)) :=
    List.countP_pos_iff.mpr ⟨v, hmem, by simp⟩
  have hc' : s.vers.countP (fun r => r.packageId == v.packageId) = 1 := hc
  show (s.vers.filter fun r => !(r.id == v.id)).countP
    (fun r => r.packageId == v.packageId) = 0
  rw [List.countP_filter]
  omega

/-- Full case analysis of `VersionModel.delete` at a row found by id: a
non-latest row is removed; the latest row is refused while other versions
exist; the latest sole row is removed, leaving the package empty (so the
promotion helper finds nothing and changes nothing). -/
theorem del_spec (s : Reg) (v : VersionRow)
    (hid : findById s v.id = some v) :
    (v.isLatest = false →
      del s v.id = .ok ({ s with vers := s.vers.filter fun r => !(r.id == v.id) }, true)) ∧
    (v.isLatest = true → versionCount s v.packageId > 1 →
      del s v.id = .error "Cannot delete latest version when other versions exist") ∧
    (v.isLatest = true → versionCount s v.packageId = 1 →
      del s v.id = .ok ({ s with vers := s.vers.filter fun r => !(r.id == v.id) }, true) ∧
      versionCount { s with vers := s.vers.filter fun r => !(r.id == v.id) }
        v.packageId = 0) := by
  have hmem : v ∈ s.vers := List.mem_of_find?_eq_some hid
  have hdel : (s.vers.filter fun r => !(r.id == v.id)).length < s.vers.length :=
    length_filter_lt_of_mem_not hmem (by simp)
  have hne : s.vers.length ≠ (s.vers.filter fun r => !(r.id == v.id)).length :=
    Nat.ne_of_gt hdel
  refine ⟨?_, ?_, ?_⟩
  · intro ha
    simp [del, hid, ha, hne]
  · intro ha hc
    have : decide ((findByPackageId s v.packageId).length > 1) = true := by
      rw [findByPackageId_length]
      simpa using hc
    simp [del, hid, ha, this]
  · intro ha hc
    have hz := versionCount_zero_after_remove hmem hc
    have hguard : (v.isLatest && decide ((findByPackageId s v.packageId).length > 1)) =
        false := by
      rw [findByPackageId_length, hc]
      simp
    have hnil : findByPackageId
        { s with vers := s.vers.filter fun r => !(r.id == v.id) } v.packageId = [] :=
      findByPackageId_eq_nil _ _ hz
    refine ⟨?_, hz⟩
    simp [del, hid, hguard, setNewLatestVersion, hnil, hne, ha]
    rw [findByPackageId_length]
    omega

/-! ## Claim C2 -/

/-- C2 counterexample: in `regTwo`, version `1.1.0` (id 2) is latest and
version `1.0.0` remains — yet `versionModel.delete` refuses and throws instead
of deleting and promoting the most recently created remaining version. -/
theorem delete_latest_with_sibling_errors :
    VersionModel.del regTwo 2 =
      .error "Cannot delete latest version when other versions exist" := rfl

/-- C2 amended: `versionModel.delete` removes the row of a non-latest version
(and the route removes its artifact first); but when the deleted version is
latest and at least one other version of the package remains, the delete is
REFUSED with an error and no promotion happens; the automatic-promotion helper
only runs when the deleted latest was the package's sole version, in which
case it finds no remaining version and leaves the package with zero
versions. -/
theorem delete_version_guard_behavior (s : Reg) (v : VersionRow)
    (hid : VersionModel.findById s v.id = some v) :
    (v.isLatest = false →
      VersionModel.del s v.id =
        .ok ({ s with vers := s.vers.filter fun r => !(r.id == v.id) }, true)) ∧
    (v.isLatest = true → versionCount s v.packageId > 1 →
      VersionModel.del s v.id =
        .error "Cannot delete latest version when other versions exist") ∧
    (v.isLatest = true → versionCount s v.packageId = 1 →
      VersionModel.del s v.id =
        .ok ({ s with vers := s.vers.filter fun r => !(r.id == v.id) }, true) ∧
      versionCount { s with vers := s.vers.filter fun r => !(r.id == v.id) }
        v.packageId = 0) :=
  del_spec s v hid

/-- Witness for C2 at concrete inputs: deleting non-latest `1.0.0` from
`regTwo` succeeds; deleting latest `1.1.0` (with a sibling) errors; deleting
the sole version of `regOne` leaves the package empty. -/
theorem delete_version_guard_behavior_witness :
    (VersionModel.findById regTwo verA1.id = some verA1 ∧
      VersionModel.del regTwo verA1.id =
        .ok ({ regTwo with vers := regTwo.vers.filter fun r => !(r.id == verA1.id) },
          true)) ∧
    (VersionModel.findById regTwo verA2.id = some verA2 ∧
      versionCount regTwo verA2.packageId > 1 ∧
      VersionModel.del regTwo verA2.id =
        .error "Cannot delete latest version when other versions exist") ∧
    (VersionModel.findById regOne verA1L.id = some verA1L ∧
      versionCount regOne verA1L.packageId = 1 ∧
      versionCount { regOne with
        vers := regOne.vers.filter fun r => !(r.id == verA1L.id) }
        verA1L.packageId = 0) :=
  ⟨⟨by decide, (delete_version_guard_behavior regTwo verA1 (by decide)).1 (by decide)⟩,
   ⟨by decide, by decide,
    (delete_version_guard_behavior regTwo verA2 (by decide)).2.1 (by decide) (by decide)⟩,
   ⟨by decide, by decide,
    ((delete_version_guard_behavior regOne verA1L (by decide)).2.2 (by decide)
      (by decide)).2⟩⟩

/-! ## Fresh-publish detection lemmas -/

/-- Without any of the inspected signals, the heuristic stack reports no
fresh intent. -/
theorem detectFresh_eq_false (s : Reg) (req : UploadReq) (name : String)
    (h : NoFreshSignal req) : detectFresh s req name = false := by
  obtain ⟨h1, h2, h3, h4, h5, h6, h7, h8, h9⟩ := h
  have e1 : (req.queryFresh == some "true") = false := by
    rw [beq_eq_false_iff_ne]; exact h1
  have e2 : (req.bodyFresh == some "true") = false := by
    rw [beq_eq_false_iff_ne]; exact h2
  have e3 : (req.headerXPiralFresh == some "true") = false := by
    rw [beq_eq_false_iff_ne]; exact h3
  have e4 : (req.headerXPiralFresh == some "fresh") = false := by
    rw [beq_eq_false_iff_ne]; exact h4
  have e5 : (req.headerFresh == some "true") = false := by
    rw [beq_eq_false_iff_ne]; exact h5
  have e6 : (req.headerFresh == some "fresh") = false := by
    rw [beq_eq_false_iff_ne]; exact h6
  unfold detectFresh
  rcases hua : req.userAgent with _ | ua
  · simp [e1, e2, e3, e4, e5, e6, h7, h8, hua]
  · have e9 : strContains ua "piral-cli/http.node" = false := h9 ua hua
    simp [e1, e2, e3, e4, e5, e6, h7, h8, hua, e9]

/-- The explicit `?fresh=true` query flag always enables fresh mode. -/
theorem detectFresh_eq_true_of_query (s : Reg) (req : UploadReq) (name : String)
    (h : req.queryFresh = some "true") : detectFresh s req name = true := by
  unfold detectFresh
  rcases hua : req.userAgent with _ | ua <;> simp [h, hua]

/-! ## Claim C4 -/

/-- C4 counterexample: re-uploading `a@1.0.0` to `regOne` with NO fresh
signal but the `piral-cli/http.node` user-agent does NOT fail with `Conflict`:
the heuristic silently enables fresh mode, the upload succeeds and the first
upload's artifact `f1` is replaced by `f2`. -/
theorem upload_piral_useragent_overwrites :
    ((uploadRoute regOne reqPiral infoA "f2" 11 "h2").2).toBool = true ∧
    (uploadRoute regOne reqPiral infoA "f2" 11 "h2").1.files = ["f2"] := ⟨rfl, rfl⟩

/-- C4 amended: uploading the same `package@version` a second time fails with
a 409 `Conflict` error naming the conflicting version — and leaves the first
upload's version row and artifact untouched, removing only the just-uploaded
temp file — PROVIDED the request carries no fresh signal in query, body,
headers or URL and its user-agent does not contain `piral-cli/http.node`
(for such a user-agent the heuristic silently enables fresh mode and the
upload overwrites instead). -/
theorem upload_conflict_without_fresh_signal
    (s : Reg) (req : UploadReq) (info : PkgInfo) (tempFile : String)
    (tempSize : Nat) (tempHash : String) (pkg : PkgRow) (ex : VersionRow)
    (hnf : NoFreshSignal req)
    (hp : PackageModel.findByName s info.name = some pkg)
    (hv : VersionModel.findByPackageAndVersion s pkg.id info.version = some ex) :
    (uploadRoute s req info tempFile tempSize tempHash).2 =
      .error ⟨"Version " ++ info.version ++ " already exists for package " ++
        info.name ++ ". Use --fresh to overwrite.", 409⟩ ∧
    (uploadRoute s req info tempFile tempSize tempHash).1.vers = s.vers ∧
    (uploadRoute s req info tempFile tempSize tempHash).1.pkgs = s.pkgs ∧
    (tempFile ∉ s.files →
      (uploadRoute s req info tempFile tempSize tempHash).1.files = s.files) := by
  have hf : detectFresh { s with files := s.files ++ [tempFile] } req info.name =
      false := detectFresh_eq_false _ req info.name hnf
  have hp0 : PackageModel.findByName { s with files := s.files ++ [tempFile] }
      info.name = some pkg := hp
  have hv0 : VersionModel.findByPackageAndVersion
      { s with files := s.files ++ [tempFile] } pkg.id info.version = some ex := hv
  refine ⟨?_, ?_, ?_, ?_⟩ <;>
    simp only [uploadRoute, hf, hp0, hv0, Bool.not_false, if_true]
  all_goals
    first
      | rfl
      | (intro htf
         show (s.files ++ [tempFile]).erase tempFile = s.files
         rw [List.erase_append_right _ htf]
         simp)

/-- Witness for C4 at a concrete input: a plain `curl` re-upload of `a@1.0.0`
to `regOne` gets the 409 and leaves the rows and artifact `f1` in place. -/
theorem upload_conflict_without_fresh_signal_witness :
    (NoFreshSignal reqPlain ∧
      PackageModel.findByName regOne infoA.name = some pkgA ∧
      VersionModel.findByPackageAndVersion regOne pkgA.id infoA.version = some verA1L ∧
      "f2" ∉ regOne.files) ∧
    (uploadRoute regOne reqPlain infoA "f2" 11 "h2").2 =
      .error ⟨"Version 1.0.0 already exists for package a. Use --fresh to overwrite.",
        409⟩ ∧
    (uploadRoute regOne reqPlain infoA "f2" 11 "h2").1.vers = regOne.vers ∧
    (uploadRoute regOne reqPlain infoA "f2" 11 "h2").1.files = regOne.files := by
  have hnf : NoFreshSignal reqPlain := by
    refine ⟨by decide, by decide, by decide, by decide, by decide, by decide,
      by decide, by decide, ?_⟩
    intro ua hua
    have hu : "curl/7.68.0" = ua := Option.some_inj.mp hua
    rw [← hu]
    decide
  have hmain := upload_conflict_without_fresh_signal regOne reqPlain infoA "f2" 11
    "h2" pkgA verA1L hnf (by decide) (by decide)
  exact ⟨⟨hnf, by decide, by decide, by decide⟩, hmain.1, hmain.2.1,
    hmain.2.2.2 (by decide)⟩

/-! ## Claim C5 -/

/-- C5 counterexample: in `regTwo`, version `1.1.0` is latest and `1.0.0`
remains; a fresh publish of `1.1.0` (explicit `?fresh=true`) does NOT
delete-and-recreate it: `versionModel.delete` refuses the latest version and
the whole upload fails with the guard error. -/
theorem fresh_publish_latest_with_sibling_errors :
    (uploadRoute regTwo reqFreshQ infoA11 "f3" 12 "h3").2 =
      .error ⟨"Cannot delete latest version when other versions exist", 500⟩ ∧
    (uploadRoute regTwo reqFreshQ infoA11 "f3" 12 "h3").1.vers = regTwo.vers :=
  ⟨rfl, rfl⟩

/-- C5 amended: a fresh publish of an existing version first deletes the old
artifact and version row and then re-creates the version — with
`isLatest = true` always, so a previously latest version remains latest —
ONLY when the existing version is not latest or is the package's sole
version; when the existing version is latest and at least one other version
remains, the delete guard refuses, the upload fails with its error, and the
version row is not re-created. -/
theorem fresh_publish_overwrite_behavior
    (s : Reg) (req : UploadReq) (info : PkgInfo) (tempFile : String)
    (tempSize : Nat) (tempHash : String) (pkg : PkgRow) (ex : VersionRow)
    (hq : req.queryFresh = some "true")
    (hp : PackageModel.findByName s info.name = some pkg)
    (hv : VersionModel.findByPackageAndVersion s pkg.id info.version = some ex)
    (hid : VersionModel.findById s ex.id = some ex)
    (hvne : info.version ≠ "")
    (huniq : s.vers.countP
      (fun r => r.packageId == pkg.id && r.version == info.version) = 1) :
    (ex.isLatest = false ∨ versionCount s pkg.id = 1 →
      ∃ s' nv, uploadRoute s req info tempFile tempSize tempHash = (s', .ok (pkg, nv)) ∧
        nv.isLatest = true ∧ nv.version = info.version ∧ nv.packageId = pkg.id ∧
        s'.vers = ((s.vers.filter fun r => !(r.id == ex.id)).map
          (clearLatestRow pkg.id s.clock)) ++ [nv]) ∧
    (ex.isLatest = true → versionCount s pkg.id > 1 →
      (uploadRoute s req info tempFile tempSize tempHash).2 =
        .error ⟨"Cannot delete latest version when other versions exist", 500⟩ ∧
      (uploadRoute s req info tempFile tempSize tempHash).1.vers = s.vers) := by
  have hexpid : ex.packageId = pkg.id := by
    have := List.find?_some hv
    simp only [Bool.and_eq_true, beq_iff_eq] at this
    exact this.1
  have hf : detectFresh { s with files := s.files ++ [tempFile] } req info.name =
      true := detectFresh_eq_true_of_query _ req info.name hq
  have hp0 : PackageModel.findByName { s with files := s.files ++ [tempFile] }
      info.name = some pkg := hp
  have hv0 : VersionModel.findByPackageAndVersion
      { s with files := s.files ++ [tempFile] } pkg.id info.version = some ex := hv
  have hvv : (if info.version == "" then "1.0.0" else info.version) = info.version := by
    simp [hvne]
  have hnone : ∀ t : Reg, t.vers = s.vers.filter (fun r => !(r.id == ex.id)) →
      VersionModel.findByPackageAndVersion t pkg.id info.version = none := by
    intro t ht
    have hz : t.vers.countP
        (fun r => r.packageId == pkg.id && r.version == info.version) = 0 := by
      rw [ht, List.countP_filter]
      have hsplit := countP_split s.vers
        (fun r => r.packageId == pkg.id && r.version == info.version)
        (fun r => r.id == ex.id)
      have hpos : 0 < s.vers.countP (fun w =>
          ((w.packageId == pkg.id && w.version == info.version)) && (w.id == ex.id)) :=
        List.countP_pos_iff.mpr ⟨ex, List.mem_of_find?_eq_some hv, by
          have h2 := List.find?_some hv
          simp only [Bool.and_eq_true, beq_iff_eq] at h2
          simp [h2.1, h2.2]⟩
      omega
    show t.vers.find? _ = none
    rw [List.find?_eq_none]
    intro w hw
    have := List.countP_eq_zero.mp hz w hw
    simpa using this
  refine ⟨?_, ?_⟩
  · intro hcase
    have hdel2 : ∀ t : Reg, t.vers = s.vers →
        VersionModel.del t ex.id =
          .ok ({ t with vers := t.vers.filter fun r => !(r.id == ex.id) }, true) := by
      intro t ht
      have hidt : VersionModel.findById t ex.id = some ex := by
        show t.vers.find? _ = some ex
        rw [ht]
        exact hid
      have hspec := del_spec t ex hidt
      cases hlat : ex.isLatest
      · exact hspec.1 hlat
      · rcases hcase with hl | hc1
        · rw [hlat] at hl; cases hl
        · have hcnt : versionCount t ex.packageId = 1 := by
            show t.vers.countP _ = 1
            rw [ht, hexpid]
            exact hc1
          exact (hspec.2.2 hlat hcnt).1
    rcases hexfp : ex.filePath with _ | fp <;>
      · simp only [uploadRoute, hf, Bool.not_true, Bool.false_eq_true, if_false,
          hp0, hv0, hexfp, hdel2, uploadFinish, VersionModel.create, hvv, hnone]
        refine ⟨_, _, rfl, ?_, ?_, ?_, ?_⟩ <;> simp
  · intro hlat hcnt
    have hdelErr : ∀ t : Reg, t.vers = s.vers →
        VersionModel.del t ex.id =
          .error "Cannot delete latest version when other versions exist" := by
      intro t ht
      have hidt : VersionModel.findById t ex.id = some ex := by
        show t.vers.find? _ = some ex
        rw [ht]
        exact hid
      have hcnt' : versionCount t ex.packageId > 1 := by
        show t.vers.countP _ > 1
        rw [ht, hexpid]
        exact hcnt
      exact (del_spec t ex hidt).2.1 hlat hcnt'
    rcases hexfp : ex.filePath with _ | fp <;>
      · simp only [uploadRoute, hf, Bool.not_true, Bool.false_eq_true, if_false,
          hp0, hv0, hexfp, hdelErr]
        constructor <;> trivial

/-- Witness for C5 at concrete inputs: fresh-publishing sole latest `1.0.0`
in `regOne` recreates it as latest; fresh-publishing latest `1.1.0` in
`regTwo` (sibling present) fails with the guard error. -/
theorem fresh_publish_overwrite_behavior_witness :
    (∃ s' nv, uploadRoute regOne reqFreshQ infoA "f2" 11 "h2" = (s', .ok (pkgA, nv)) ∧
      nv.isLatest = true ∧ nv.version = "1.0.0" ∧ nv.packageId = 0 ∧
      s'.vers = ((regOne.vers.filter fun r => !(r.id == verA1L.id)).map
        (clearLatestRow 0 regOne.clock)) ++ [nv]) ∧
    ((uploadRoute regTwo reqFreshQ infoA11 "f3" 12 "h3").2 =
      .error ⟨"Cannot delete latest version when other versions exist", 500⟩ ∧
     (uploadRoute regTwo reqFreshQ infoA11 "f3" 12 "h3").1.vers = regTwo.vers) :=
  ⟨(fresh_publish_overwrite_behavior regOne reqFreshQ infoA "f2" 11 "h2" pkgA verA1L
      rfl (by decide) (by decide) (by decide) (by decide) (by decide)).1
    (Or.inr (by decide)),
   (fresh_publish_overwrite_behavior regTwo reqFreshQ infoA11 "f3" 12 "h3" pkgA verA2
      rfl (by decide) (by decide) (by decide) (by decide) (by decide)).2
    (by decide) (by decide)⟩

/-! ## Preservation of the latest invariant: row-removal lemmas -/

/-- Additive characterisation of removing the (unique) row with `v`'s id. -/
theorem countP_filter_remove {l : List VersionRow}
    (hnd : (l.map fun r => r.id).Nodup) {v : VersionRow} (hv : v ∈ l)
    (q : VersionRow → Bool) :
    l.countP q = (l.filter fun r => !(r.id == v.id)).countP q +
      (if q v then 1 else 0) := by
  have hsplit := countP_split l q (fun r => r.id == v.id)
  have h1 : l.countP (fun w => q w && (w.id == v.id)) = if q v then 1 else 0 := by
    have := countP_id_and hnd hv q
    rw [← this]
    refine List.countP_congr fun w _ => ?_
    constructor <;> intro hw <;> simp only [Bool.and_eq_true] at hw ⊢ <;>
      exact ⟨hw.2, hw.1⟩
  have h2 : (l.filter fun r => !(r.id == v.id)).countP q =
      l.countP (fun w => q w && !(w.id == v.id)) := by
    rw [List.countP_filter]
  omega

theorem idsOk_filter (s : Reg) (p : VersionRow → Bool) (h : IdsOk s) :
    IdsOk { s with vers := s.vers.filter p } := by
  refine ⟨?_, ?_⟩
  · exact ((List.filter_sublist s.vers).map fun r => r.id).nodup h.1
  · intro v hv
    exact h.2 v (List.mem_of_mem_filter hv)

/-- Removing a non-latest row, or the sole row, of a package keeps the latest
invariant. -/
theorem latestOk_after_remove {s : Reg} {v : VersionRow}
    (hnd : (s.vers.map fun r => r.id).Nodup) (hv : v ∈ s.vers)
    (hL : LatestOk s)
    (hcase : v.isLatest = false ∨ versionCount s v.packageId = 1) :
    LatestOk { s with vers := s.vers.filter fun r => !(r.id == v.id) } := by
  intro pid hpos
  have epkg := countP_filter_remove hnd hv (fun r => r.packageId == pid)
  have elat := countP_filter_remove hnd hv (fun r => r.packageId == pid && r.isLatest)
  have hpos' : 0 < (s.vers.filter fun r => !(r.id == v.id)).countP
      (fun r => r.packageId == pid) := hpos
  show (s.vers.filter fun r => !(r.id == v.id)).countP
    (fun r => r.packageId == pid && r.isLatest) = 1
  by_cases hp : v.packageId = pid
  · rcases hcase with hfalse | hone
    · have elat' : s.vers.countP (fun r => r.packageId == pid && r.isLatest) =
          (s.vers.filter fun r => !(r.id == v.id)).countP
            (fun r => r.packageId == pid && r.isLatest) := by
        rw [elat]
        simp [hfalse]
      have epkg' : s.vers.countP (fun r => r.packageId == pid) =
          (s.vers.filter fun r => !(r.id == v.id)).countP
            (fun r => r.packageId == pid) + 1 := by
        rw [epkg]
        simp [hp]
      have hposOld : 0 < versionCount s pid := by
        show 0 < s.vers.countP (fun r => r.packageId == pid)
        omega
      have h1' : s.vers.countP (fun r => r.packageId == pid && r.isLatest) = 1 :=
        hL pid hposOld
      omega
    · have hone' : s.vers.countP (fun r => r.packageId == pid) = 1 := by
        rw [← hp]
        exact hone
      have epkg' : s.vers.countP (fun r => r.packageId == pid) =
          (s.vers.filter fun r => !(r.id == v.id)).countP
            (fun r => r.packageId == pid) + 1 := by
        rw [epkg]
        simp [hp]
      omega
  · have elat' : s.vers.countP (fun r => r.packageId == pid && r.isLatest) =
        (s.vers.filter fun r => !(r.id == v.id)).countP
          (fun r => r.packageId == pid && r.isLatest) := by
      rw [elat]
      simp [hp]
    have epkg' : s.vers.countP (fun r => r.packageId == pid) =
        (s.vers.filter fun r => !(r.id == v.id)).countP
          (fun r => r.packageId == pid) := by
      rw [epkg]
      simp [hp]
    have hposOld : 0 < versionCount s pid := by
      show 0 < s.vers.countP (fun r => r.packageId == pid)
      omega
    have h1' : s.vers.countP (fun r => r.packageId == pid && r.isLatest) = 1 :=
      hL pid hposOld
    omega

/-- `VersionModel.delete` preserves the invariant on every committed result. -/
theorem del_inv_any (s : Reg) (vid : Nat) (hInv : Inv s) :
    ∀ s' b, VersionModel.del s vid = .ok (s', b) → Inv s' := by
  intro s' b hok
  cases hid : findById s vid with
  | none =>
    simp only [del, hid, Except.ok.injEq, Prod.mk.injEq] at hok
    rw [← hok.1]
    exact hInv
  | some v =>
    have hvid : v.id = vid := by
      have := List.find?_some hid
      simpa using this
    have hvmem : v ∈ s.vers := List.mem_of_find?_eq_some hid
    have hlen : (s.vers.filter fun r => !(r.id == vid)).length < s.vers.length := by
      refine length_filter_lt_of_mem_not hvmem ?_
      simp [hvid]
    have hfid : (s.vers.filter fun r => !(r.id == vid)) =
        (s.vers.filter fun r => !(r.id == v.id)) := by rw [hvid]
    have hIdsF : IdsOk { s with vers := s.vers.filter fun r => !(r.id == vid) } :=
      idsOk_filter s _ hInv.1
    simp only [del, hid] at hok
    by_cases hg : (v.isLatest && decide ((findByPackageId s v.packageId).length > 1)) =
        true
    · rw [if_pos hg] at hok
      cases hok
    · rw [if_neg hg] at hok
      by_cases hdl : (s.vers.length ≠ (s.vers.filter fun r => !(r.id == vid)).length) ∧
          v.isLatest = true
      · rw [if_pos hdl] at hok
        have hone : versionCount s v.packageId = 1 := by
          have hle : versionCount s v.packageId ≤ 1 := by
            rcases Nat.lt_or_ge 1 (versionCount s v.packageId) with hgt | hle
            · exfalso
              apply hg
              rw [hdl.2, findByPackageId_length]
              simpa using hgt
            · exact hle
          have hpos : 0 < versionCount s v.packageId :=
            List.countP_pos_iff.mpr ⟨v, hvmem, by simp⟩
          omega
        have hzero : versionCount
            { s with vers := s.vers.filter fun r => !(r.id == v.id) } v.packageId = 0 :=
          versionCount_zero_after_remove hvmem hone
        have hnil : findByPackageId
            { s with vers := s.vers.filter fun r => !(r.id == vid) } v.packageId = [] := by
          refine findByPackageId_eq_nil _ _ ?_
          show (s.vers.filter fun r => !(r.id == vid)).countP
            (fun r => r.packageId == v.packageId) = 0
          rw [hfid]
          exact hzero
        rw [show setNewLatestVersion
            { s with vers := s.vers.filter fun r => !(r.id == vid) } v.packageId =
            { s with vers := s.vers.filter fun r => !(r.id == vid) } by
          simp [setNewLatestVersion, hnil]] at hok
        simp only [Except.ok.injEq, Prod.mk.injEq] at hok
        rw [← hok.1]
        refine ⟨hIdsF, ?_⟩
        rw [show ({ s with vers := s.vers.filter fun r => !(r.id == vid) } : Reg) =
            { s with vers := s.vers.filter fun r => !(r.id == v.id) } by rw [hfid]]
        exact latestOk_after_remove hInv.1.1 hvmem hInv.2 (Or.inr hone)
      · rw [if_neg hdl] at hok
        simp only [Except.ok.injEq, Prod.mk.injEq] at hok
        rw [← hok.1]
        refine ⟨hIdsF, ?_⟩
        have hnotlatest : v.isLatest = false := by
          cases hl : v.isLatest
          · rfl
          · exfalso
            exact hdl ⟨Nat.ne_of_gt hlen, hl⟩
        rw [show ({ s with vers := s.vers.filter fun r => !(r.id == vid) } : Reg) =
            { s with vers := s.vers.filter fun r => !(r.id == v.id) } by rw [hfid]]
        exact latestOk_after_remove hInv.1.1 hvmem hInv.2 (Or.inl hnotlatest)

/-! ## Preservation of the latest invariant: the remaining operations -/

/-- The invariant only reads the `versions` table and the id counter, so any
transition that keeps the rows and does not decrease the counter preserves
it. -/
theorem inv_of_vers_eq (s t : Reg) (hv : t.vers = s.vers) (hn : s.nextId ≤ t.nextId)
    (hInv : Inv s) : Inv t := by
  refine ⟨⟨?_, ?_⟩, ?_⟩
  · rw [hv]
    exact hInv.1.1
  · intro v hvm
    rw [hv] at hvm
    exact lt_of_lt_of_le (hInv.1.2 v hvm) hn
  · intro pid hpos
    show t.vers.countP _ = 1
    rw [hv]
    refine hInv.2 pid ?_
    show 0 < s.vers.countP _
    have h0 : 0 < t.vers.countP (fun v => v.packageId == pid) := hpos
    rw [hv] at h0
    exact h0

/-- A row-wise update that never touches id, package or the latest flag
preserves the invariant. -/
theorem inv_map_preserving (s : Reg) (f : VersionRow → VersionRow)
    (hid : ∀ w, (f w).id = w.id) (hpk : ∀ w, (f w).packageId = w.packageId)
    (hlt : ∀ w, (f w).isLatest = w.isLatest) (hInv : Inv s) :
    Inv { s with vers := s.vers.map f } := by
  have hids : (s.vers.map f).map (fun r => r.id) = s.vers.map (fun r => r.id) := by
    rw [List.map_map]
    exact List.map_congr_left fun w _ => hid w
  refine ⟨⟨?_, ?_⟩, ?_⟩
  · show ((s.vers.map f).map fun r => r.id).Nodup
    rw [hids]
    exact hInv.1.1
  · intro v hvm
    rcases List.mem_map.mp hvm with ⟨w, hw, rfl⟩
    rw [hid w]
    exact hInv.1.2 w hw
  · intro pid hpos
    have hcnt : ∀ pid', (s.vers.map f).countP (fun v => v.packageId == pid') =
        s.vers.countP (fun v => v.packageId == pid') := by
      intro pid'
      rw [List.countP_map]
      exact List.countP_congr fun w _ => by simp [hpk w]
    have hclt : (s.vers.map f).countP (fun v => v.packageId == pid && v.isLatest) =
        s.vers.countP (fun v => v.packageId == pid && v.isLatest) := by
      rw [List.countP_map]
      exact List.countP_congr fun w _ => by simp [hpk w, hlt w]
    show (s.vers.map f).countP _ = 1
    rw [hclt]
    refine hInv.2 pid ?_
    show 0 < s.vers.countP _
    have h0 : 0 < (s.vers.map f).countP (fun v => v.packageId == pid) := hpos
    rw [hcnt] at h0
    exact h0

/-- Package counts are untouched by clearing another package's flags. -/
theorem countP_map_clear_pkg (l : List VersionRow) (pid c pid' : Nat) :
    (l.map (clearLatestRow pid c)).countP (fun v => v.packageId == pid') =
      l.countP (fun v => v.packageId == pid') := by
  rw [List.countP_map]
  exact List.countP_congr fun w _ => by simp [clearLatestRow_packageId]

/-- `VersionModel.create` preserves the invariant on every committed result. -/
theorem create_inv_any (s : Reg) (pid : Nat) (v : String) (chg : Option String)
    (dep : Bool) (fp : Option String) (fsz : Option Nat) (ck : Option String)
    (hInv : Inv s) :
    ∀ s' nv, VersionModel.create s pid v chg dep fp fsz ck = .ok (s', nv) → Inv s' := by
  intro s' nv hok
  cases hfv : findByPackageAndVersion s pid v with
  | some ex =>
    simp only [create, hfv] at hok
    cases hok
  | none =>
    simp only [create, hfv, Except.ok.injEq, Prod.mk.injEq] at hok
    rw [← hok.1]
    set NV : VersionRow :=
      { id := s.nextId, packageId := pid, version := v, changelog := chg,
        isLatest := true, isDeprecated := dep, filePath := fp, fileSize := fsz,
        checksum := ck, createdAt := s.clock, updatedAt := s.clock } with hNV
    have hids : ((s.vers.map (clearLatestRow pid s.clock)) ++ [NV]).map
        (fun r => r.id) = (s.vers.map fun r => r.id) ++ [s.nextId] := by
      rw [List.map_append, List.map_map]
      congr 1
      exact List.map_congr_left fun w _ => clearLatestRow_id pid s.clock w
    refine ⟨⟨?_, ?_⟩, ?_⟩
    · show (((s.vers.map (clearLatestRow pid s.clock)) ++ [NV]).map
        fun r => r.id).Nodup
      rw [hids, List.nodup_append]
      refine ⟨hInv.1.1, List.nodup_singleton _, ?_⟩
      intro a ha hb
      rcases List.mem_map.mp ha with ⟨w, hw, rfl⟩
      have hlt := hInv.1.2 w hw
      simp only [List.mem_singleton] at hb
      omega
    · intro w hw
      rcases List.mem_append.mp hw with hw1 | hw2
      · rcases List.mem_map.mp hw1 with ⟨u, hu, rfl⟩
        rw [clearLatestRow_id]
        exact Nat.lt_succ_of_lt (hInv.1.2 u hu)
      · simp only [List.mem_singleton] at hw2
        rw [hw2]
        exact Nat.lt_succ_self _
    · intro pid' hpos
      show ((s.vers.map (clearLatestRow pid s.clock)) ++ [NV]).countP _ = 1
      rw [List.countP_append]
      by_cases hp : pid' = pid
      · rw [hp, countP_map_clear]
        simp [hNV]
      · rw [countP_map_clear_other _ _ _ _ hp]
        have hnv0 : ([NV].countP fun v => v.packageId == pid' && v.isLatest) = 0 := by
          simp [hNV, Ne.symm hp]
        have hnp0 : ([NV].countP fun v => v.packageId == pid') = 0 := by
          simp [hNV, Ne.symm hp]
        rw [hnv0, Nat.add_zero]
        refine hInv.2 pid' ?_
        have h0 : 0 < ((s.vers.map (clearLatestRow pid s.clock)) ++ [NV]).countP
            (fun v => v.packageId == pid') := hpos
        rw [List.countP_append, countP_map_clear_pkg, hnp0] at h0
        exact h0

/-- `VersionModel.setLatest`, called with a version row of the package (as the
promotion route guarantees), preserves the invariant. -/
theorem setLatest_inv (s : Reg) (pkgid : Nat) (vi : VersionRow) (hInv : Inv s)
    (hvi : vi ∈ s.vers) (hvp : vi.packageId = pkgid) :
    Inv (VersionModel.setLatest s pkgid vi.id).1 := by
  show Inv
    { s with
      vers := (s.vers.map (clearLatestRow pkgid s.clock)).map
        (fun w => if w.id == vi.id && w.packageId == pkgid then
          { w with isLatest := true, updatedAt := s.clock } else w) }
  rw [List.map_map]
  set g : VersionRow → VersionRow := (fun w =>
    if w.id == vi.id && w.packageId == pkgid then
      { w with isLatest := true, updatedAt := s.clock } else w) ∘
    clearLatestRow pkgid s.clock with hg
  have gid : ∀ w, (g w).id = w.id := by
    intro w
    simp only [hg, Function.comp_apply]
    split
    · rw [clearLatestRow_id]
    · rw [clearLatestRow_id]
  have gpk : ∀ w, (g w).packageId = w.packageId := by
    intro w
    simp only [hg, Function.comp_apply]
    split
    · rw [clearLatestRow_packageId]
    · rw [clearLatestRow_packageId]
  have hids : (s.vers.map g).map (fun r => r.id) = s.vers.map (fun r => r.id) := by
    rw [List.map_map]
    exact List.map_congr_left fun w _ => gid w
  refine ⟨⟨?_, ?_⟩, ?_⟩
  · show ((s.vers.map g).map fun r => r.id).Nodup
    rw [hids]
    exact hInv.1.1
  · intro w hw
    rcases List.mem_map.mp hw with ⟨u, hu, rfl⟩
    rw [gid u]
    exact hInv.1.2 u hu
  · intro pid' hpos
    have hcnt : ∀ q, (s.vers.map g).countP (fun v => v.packageId == q) =
        s.vers.countP (fun v => v.packageId == q) := by
      intro q
      rw [List.countP_map]
      exact List.countP_congr fun w _ => by simp [gpk w]
    by_cases hp : pid' = pkgid
    · subst hp
      show (s.vers.map g).countP _ = 1
      rw [List.countP_map]
      have hpoint : ∀ w ∈ s.vers,
          (((fun v => v.packageId == pid' && v.isLatest) ∘ g) w = true ↔
            (w.id == vi.id && w.packageId == pid') = true) := by
        intro w _
        simp only [hg, Function.comp_apply, clearLatestRow]
        by_cases h1 : w.id = vi.id <;> by_cases h2 : w.packageId = pid' <;>
          simp [h1, h2]
      rw [List.countP_congr hpoint]
      rw [countP_id_and hInv.1.1 hvi (fun w => w.packageId == pid')]
      simp [hvp]
    · show (s.vers.map g).countP _ = 1
      have hclt : (s.vers.map g).countP (fun v => v.packageId == pid' && v.isLatest) =
          s.vers.countP (fun v => v.packageId == pid' && v.isLatest) := by
        rw [List.countP_map]
        refine List.countP_congr fun w _ => ?_
        simp only [hg, Function.comp_apply, clearLatestRow]
        by_cases h2 : w.packageId = pkgid
        · have hne : ¬w.packageId = pid' := by
            rw [h2]
            exact fun hc => hp hc.symm
          by_cases h1 : w.id = vi.id <;> simp [h1, h2, hne, Ne.symm hp]
        · by_cases h1 : w.id = vi.id <;> simp [h1, h2]
      rw [hclt]
      refine hInv.2 pid' ?_
      have h0 : 0 < (s.vers.map g).countP (fun v => v.packageId == pid') := hpos
      rw [hcnt] at h0
      exact h0

theorem createPackageRoute_inv (s : Reg) (n : String) (d : Option String)
    (a ai : String) (pub : Bool) (hInv : Inv s) :
    Inv (createPackageRoute s n d a ai pub).1 := by
  unfold createPackageRoute
  cases hpn : PackageModel.findByName s n with
  | some p =>
    simp only [hpn]
    exact hInv
  | none =>
    simp only [hpn]
    exact inv_of_vers_eq s _ rfl (Nat.le_succ s.nextId) hInv

theorem uploadFinish_inv (t : Reg) (pkg : PkgRow) (info : PkgInfo) (tf : String)
    (ts : Nat) (th : String) (hInv : Inv t) :
    Inv (uploadFinish t pkg info tf ts th).1 := by
  unfold uploadFinish
  cases hc : VersionModel.create t pkg.id
      (if info.version == "" then "1.0.0" else info.version)
      (some "Uploaded via Piral CLI") false (some tf) (some ts) (some th) with
  | error e =>
    simp only [hc]
    exact inv_of_vers_eq t _ rfl le_rfl hInv
  | ok p =>
    rcases p with ⟨s', nv⟩
    simp only [hc]
    exact create_inv_any t pkg.id _ _ _ _ _ _ hInv s' nv hc

theorem uploadRoute_inv (s : Reg) (req : UploadReq) (info : PkgInfo) (tf : String)
    (ts : Nat) (th : String) (hInv : Inv s) :
    Inv (uploadRoute s req info tf ts th).1 := by
  have h0 : Inv { s with files := s.files ++ [tf] } :=
    inv_of_vers_eq s _ rfl le_rfl hInv
  unfold uploadRoute
  cases hpn : PackageModel.findByName { s with files := s.files ++ [tf] } info.name with
  | none =>
    have h1 : Inv (PackageModel.create { s with files := s.files ++ [tf] } info.name
        (some (pkgDescription info)) "system@piral-feed-service.local" "system"
        true).1 :=
      inv_of_vers_eq { s with files := s.files ++ [tf] } _ rfl
        (Nat.le_succ _) h0
    cases hvn : VersionModel.findByPackageAndVersion
        (PackageModel.create { s with files := s.files ++ [tf] } info.name
          (some (pkgDescription info)) "system@piral-feed-service.local" "system"
          true).1
        (PackageModel.create { s with files := s.files ++ [tf] } info.name
          (some (pkgDescription info)) "system@piral-feed-service.local" "system"
          true).2.id info.version with
    | none =>
      simp only [hpn, hvn]
      exact uploadFinish_inv _ _ _ _ _ _ h1
    | some ex =>
      simp only [hpn, hvn]
      split
      · exact inv_of_vers_eq _ _ rfl le_rfl h1
      · cases hfp : ex.filePath with
        | some fp =>
          simp only [hfp]
          have h2 : Inv { (PackageModel.create { s with files := s.files ++ [tf] }
              info.name (some (pkgDescription info))
              "system@piral-feed-service.local" "system" true).1 with
              files := (PackageModel.create { s with files := s.files ++ [tf] }
                info.name (some (pkgDescription info))
                "system@piral-feed-service.local" "system" true).1.files.erase fp } :=
            inv_of_vers_eq _ _ rfl le_rfl h1
          cases hdl : VersionModel.del
              { (PackageModel.create { s with files := s.files ++ [tf] } info.name
                (some (pkgDescription info)) "system@piral-feed-service.local"
                "system" true).1 with
                files := (PackageModel.create { s with files := s.files ++ [tf] }
                  info.name (some (pkgDescription info))
                  "system@piral-feed-service.local" "system" true).1.files.erase fp }
              ex.id with
          | error e =>
            simp only [hdl]
            exact inv_of_vers_eq _ _ rfl le_rfl h2
          | ok p =>
            rcases p with ⟨s3, b⟩
            simp only [hdl]
            exact uploadFinish_inv _ _ _ _ _ _ (del_inv_any _ ex.id h2 s3 b hdl)
        | none =>
          simp only [hfp]
          cases hdl : VersionModel.del
              (PackageModel.create { s with files := s.files ++ [tf] } info.name
                (some (pkgDescription info)) "system@piral-feed-service.local"
                "system" true).1 ex.id with
          | error e =>
            simp only [hdl]
            exact inv_of_vers_eq _ _ rfl le_rfl h1
          | ok p =>
            rcases p with ⟨s3, b⟩
            simp only [hdl]
            exact uploadFinish_inv _ _ _ _ _ _ (del_inv_any _ ex.id h1 s3 b hdl)
  | some pkg =>
    cases hvn : VersionModel.findByPackageAndVersion { s with files := s.files ++ [tf] }
        pkg.id info.version with
    | none =>
      simp only [hpn, hvn]
      exact uploadFinish_inv _ _ _ _ _ _ h0
    | some ex =>
      simp only [hpn, hvn]
      split
      · exact inv_of_vers_eq _ _ rfl le_rfl h0
      · cases hfp : ex.filePath with
        | some fp =>
          simp only [hfp]
          have h2 : Inv { s with files := (s.files ++ [tf]).erase fp } :=
            inv_of_vers_eq s _ rfl le_rfl hInv
          cases hdl : VersionModel.del
              { s with files := (s.files ++ [tf]).erase fp } ex.id with
          | error e =>
            simp only [hdl]
            exact inv_of_vers_eq _ _ rfl le_rfl h2
          | ok p =>
            rcases p with ⟨s3, b⟩
            simp only [hdl]
            exact uploadFinish_inv _ _ _ _ _ _ (del_inv_any _ ex.id h2 s3 b hdl)
        | none =>
          simp only [hfp]
          cases hdl : VersionModel.del { s with files := s.files ++ [tf] } ex.id with
          | error e =>
            simp only [hdl]
            exact inv_of_vers_eq _ _ rfl le_rfl h0
          | ok p =>
            rcases p with ⟨s3, b⟩
            simp only [hdl]
            exact uploadFinish_inv _ _ _ _ _ _ (del_inv_any _ ex.id h0 s3 b hdl)

theorem createVersionRoute_inv (s : Reg) (pn v : String) (chg : Option String)
    (dep : Bool) (file : Option (String × Nat × String)) (hInv : Inv s) :
    Inv (createVersionRoute s pn v chg dep file).1 := by
  unfold createVersionRoute
  rcases file with _ | ⟨fp, sz, hs⟩
  · cases hpn : PackageModel.findByName s pn with
    | none =>
      simp only [hpn]
      exact hInv
    | some pkg =>
      cases hvn : VersionModel.findByPackageAndVersion s pkg.id v with
      | some ex =>
        simp only [hpn, hvn]
        exact hInv
      | none =>
        simp only [hpn, hvn, Option.map_none', Option.map_some']
        cases hc : VersionModel.create s pkg.id v chg dep none none none with
        | error e =>
          try simp only [hc]
          exact hInv
        | ok p =>
          rcases p with ⟨s', nv⟩
          try simp only [hc]
          exact create_inv_any s pkg.id v chg dep none none none hInv s' nv hc
  · have h0 : Inv { s with files := s.files ++ [fp] } :=
      inv_of_vers_eq s _ rfl le_rfl hInv
    cases hpn : PackageModel.findByName { s with files := s.files ++ [fp] } pn with
    | none =>
      simp only [hpn]
      exact inv_of_vers_eq _ _ rfl le_rfl h0
    | some pkg =>
      cases hvn : VersionModel.findByPackageAndVersion
          { s with files := s.files ++ [fp] } pkg.id v with
      | some ex =>
        simp only [hpn, hvn]
        exact inv_of_vers_eq _ _ rfl le_rfl h0
      | none =>
        simp only [hpn, hvn, Option.map_none', Option.map_some']
        cases hc : VersionModel.create { s with files := s.files ++ [fp] } pkg.id v
            chg dep (some fp) (some sz) (some hs) with
        | error e =>
          try simp only [hc]
          exact h0
        | ok p =>
          rcases p with ⟨s', nv⟩
          try simp only [hc]
          exact create_inv_any _ pkg.id v chg dep _ _ _ h0 s' nv hc

theorem updateVersionRoute_inv (s : Reg) (pn v : String) (chg : Option String)
    (dep : Bool) (hInv : Inv s) :
    Inv (updateVersionRoute s pn v chg dep).1 := by
  unfold updateVersionRoute
  cases hpn : PackageModel.findByName s pn with
  | none =>
    simp only [hpn]
    exact hInv
  | some pkg =>
    cases hvn : VersionModel.findByPackageAndVersion s pkg.id v with
    | none =>
      simp only [hpn, hvn]
      exact hInv
    | some vi =>
      simp only [hpn, hvn]
      refine inv_map_preserving s _ ?_ ?_ ?_ hInv <;> intro w <;> split <;> rfl

theorem deleteVersionRoute_inv (s : Reg) (pn v : String) (hInv : Inv s) :
    Inv (deleteVersionRoute s pn v).1 := by
  unfold deleteVersionRoute
  cases hpn : PackageModel.findByName s pn with
  | none =>
    simp only [hpn]
    exact hInv
  | some pkg =>
    cases hvn : VersionModel.findByPackageAndVersion s pkg.id v with
    | none =>
      simp only [hpn, hvn]
      exact hInv
    | some vi =>
      simp only [hpn, hvn]
      cases hfp : vi.filePath with
      | some fp =>
        simp only [hfp]
        have h0 : Inv { s with files := s.files.erase fp } :=
          inv_of_vers_eq s _ rfl le_rfl hInv
        cases hdl : VersionModel.del { s with files := s.files.erase fp } vi.id with
        | error e =>
          simp only [hdl]
          exact h0
        | ok p =>
          rcases p with ⟨s3, b⟩
          try simp only [hdl]
          cases b <;> exact del_inv_any _ vi.id h0 s3 _ hdl
      | none =>
        simp only [hfp]
        cases hdl : VersionModel.del s vi.id with
        | error e =>
          simp only [hdl]
          exact hInv
        | ok p =>
          rcases p with ⟨s3, b⟩
          try simp only [hdl]
          cases b <;> exact del_inv_any _ vi.id hInv s3 _ hdl

theorem setLatestRoute_inv (s : Reg) (pn v : String) (hInv : Inv s) :
    Inv (setLatestRoute s pn v).1 := by
  unfold setLatestRoute
  cases hpn : PackageModel.findByName s pn with
  | none =>
    simp only [hpn]
    exact hInv
  | some pkg =>
    cases hvn : VersionModel.findByPackageAndVersion s pkg.id v with
    | none =>
      simp only [hpn, hvn]
      exact hInv
    | some vi =>
      simp only [hpn, hvn]
      have hmem : vi ∈ s.vers := List.mem_of_find?_eq_some hvn
      have hvp : vi.packageId = pkg.id := by
        have := List.find?_some hvn
        simp only [Bool.and_eq_true, beq_iff_eq] at this
        exact this.1
      have hset := setLatest_inv s pkg.id vi hInv hmem hvp
      cases hsl : VersionModel.setLatest s pkg.id vi.id with
      | mk s' ch =>
        rw [hsl] at hset
        try simp only [hsl]
        cases ch <;> exact hset

theorem downloadRoute_inv (s : Reg) (pn v ip ua : String) (ok : Bool) (hInv : Inv s) :
    Inv (downloadRoute s pn v ip ua ok).1 := by
  unfold downloadRoute
  cases hpn : PackageModel.findByName s pn with
  | none =>
    simp only [hpn]
    exact hInv
  | some pkg =>
    cases hvn : VersionModel.findByPackageAndVersion s pkg.id v with
    | none =>
      simp only [hpn, hvn]
      exact hInv
    | some vi =>
      simp only [hpn, hvn]
      cases hfp : vi.filePath with
      | none =>
        simp only [hfp]
        exact hInv
      | some fp =>
        simp only [hfp]
        by_cases hmem : fp ∈ s.files
        · rw [if_pos hmem]
          cases ok
          · exact hInv
          · exact inv_of_vers_eq s _ rfl (Nat.le_succ _) hInv
        · rw [if_neg hmem]
          exact hInv

/-- Every committed operation preserves the invariant. -/
theorem stepOp_inv (s : Reg) (op : Op) (hInv : Inv s) : Inv (stepOp s op) := by
  cases op with
  | createPackage n d a ai pub => exact createPackageRoute_inv s n d a ai pub hInv
  | upload req info tf ts th => exact uploadRoute_inv s req info tf ts th hInv
  | createVersion pn v c dep f => exact createVersionRoute_inv s pn v c dep f hInv
  | updateVersion pn v c dep => exact updateVersionRoute_inv s pn v c dep hInv
  | deleteVersion pn v => exact deleteVersionRoute_inv s pn v hInv
  | promote pn v => exact setLatestRoute_inv s pn v hInv
  | download pn v ip ua ok => exact downloadRoute_inv s pn v ip ua ok hInv

theorem foldl_stepOp_inv : ∀ (ops : List Op) (s : Reg), Inv s →
    Inv (ops.foldl stepOp s)
  | [], _, h => h
  | op :: rest, s, h => foldl_stepOp_inv rest (stepOp s op) (stepOp_inv s op h)

theorem runOps_inv (ops : List Op) : Inv (runOps ops) := by
  have hinit : Inv Reg.init := by
    refine ⟨⟨List.nodup_nil, ?_⟩, ?_⟩
    · intro v hv
      cases hv
    · intro pid hpos
      simp [versionCount, Reg.init] at hpos
  exact foldl_stepOp_inv ops Reg.init hinit

/-! ## Claim C1 -/

/-- C1: in every committed state reachable from the fresh database through
the version operations — package creation, upload (plain or fresh publish),
version creation, promotion to latest, deprecation update, deletion, and
downloads — every package has at most one version flagged `isLatest`, and a
package with at least one version has exactly one. -/
theorem latest_invariant_reachable (ops : List Op) (pid : Nat) :
    latestCount (runOps ops) pid ≤ 1 ∧
    (0 < versionCount (runOps ops) pid → latestCount (runOps ops) pid = 1) := by
  have hInv := runOps_inv ops
  constructor
  · by_cases h : 0 < versionCount (runOps ops) pid
    · rw [hInv.2 pid h]
    · have hle := latestCount_le_versionCount (runOps ops) pid
      omega
  · exact hInv.2 pid

/-- Witness for C1 at a concrete input: after uploading `a@1.0.0` and
`a@1.1.0` and promoting `1.0.0` back to latest, package 0 has versions and
exactly one latest. -/
theorem latest_invariant_reachable_witness :
    0 < versionCount (runOps [Op.upload reqPlain infoA "f1" 10 "h1",
      Op.upload reqPlain infoA11 "f2" 11 "h2", Op.promote "a" "1.0.0"]) 0 ∧
    latestCount (runOps [Op.upload reqPlain infoA "f1" 10 "h1",
      Op.upload reqPlain infoA11 "f2" 11 "h2", Op.promote "a" "1.0.0"]) 0 = 1 :=
  ⟨by decide,
    (latest_invariant_reachable [Op.upload reqPlain infoA "f1" 10 "h1",
      Op.upload reqPlain infoA11 "f2" 11 "h2", Op.promote "a" "1.0.0"] 0).2
      (by decide)⟩

/-! ## Lawfulness of the semantic-version comparators -/

theorem natCmp_lawful : CmpLawful natCmp := by
  refine ⟨?_, ?_, ?_⟩
  · intro a b
    unfold natCmp
    rcases Nat.lt_trichotomy a b with h | h | h
    · simp [h, Nat.ne_of_lt h]
    · subst h
      simp
    · simp [h, Nat.lt_asymm h, (Nat.ne_of_lt h).symm]
  · intro a b
    unfold natCmp
    rcases Nat.lt_trichotomy a b with h | h | h
    · simp [h, Nat.lt_asymm h, Ordering.swap]
    · subst h
      simp [Ordering.swap]
    · simp [h, Nat.lt_asymm h, Ordering.swap]
  · intro a b c h1 h2
    unfold natCmp at h1 h2 ⊢
    split_ifs at h1 h2 ⊢ <;> first | rfl | omega | simp_all

theorem listCmp_lawful {α : Type} {f : α → α → Ordering} (hf : CmpLawful f) :
    CmpLawful (listCmp f) := by
  obtain ⟨heq, hsw, htr⟩ := hf
  refine ⟨?_, ?_, ?_⟩
  · intro a
    induction a with
    | nil =>
      intro b
      cases b <;> simp [listCmp]
    | cons x xs ih =>
      intro b
      cases b with
      | nil => simp [listCmp]
      | cons y ys => simp [listCmp, Ordering.then_eq_eq, heq, ih ys]
  · intro a
    induction a with
    | nil =>
      intro b
      cases b <;> simp [listCmp, Ordering.swap]
    | cons x xs ih =>
      intro b
      cases b with
      | nil => simp [listCmp, Ordering.swap]
      | cons y ys => simp [listCmp, Ordering.swap_then, hsw, ih ys]
  · intro a
    induction a with
    | nil =>
      intro b c h1 h2
      cases b with
      | nil => simp [listCmp] at h1
      | cons y ys =>
        cases c with
        | nil => simp [listCmp] at h2
        | cons z zs => simp [listCmp]
    | cons x xs ih =>
      intro b c h1 h2
      cases b with
      | nil => simp [listCmp] at h1
      | cons y ys =>
        cases c with
        | nil => simp [listCmp] at h2
        | cons z zs =>
          simp only [listCmp, Ordering.then_eq_lt] at h1 h2 ⊢
          rcases h1 with h1 | ⟨h1e, h1r⟩ <;> rcases h2 with h2 | ⟨h2e, h2r⟩
          · exact Or.inl (htr _ _ _ h1 h2)
          · rw [heq] at h2e
            subst h2e
            exact Or.inl h1
          · rw [heq] at h1e
            subst h1e
            exact Or.inl h2
          · rw [heq] at h1e
            subst h1e
            exact Or.inr ⟨h2e, ih ys zs h1r h2r⟩

theorem prodCmp_lawful {α β : Type} {f : α → α → Ordering} {g : β → β → Ordering}
    (hf : CmpLawful f) (hg : CmpLawful g) : CmpLawful (prodCmp f g) := by
  refine ⟨?_, ?_, ?_⟩
  · rintro ⟨a1, a2⟩ ⟨b1, b2⟩
    simp [prodCmp, Ordering.then_eq_eq, hf.1, hg.1]
  · rintro ⟨a1, a2⟩ ⟨b1, b2⟩
    simp [prodCmp, Ordering.swap_then, hf.2.1, hg.2.1]
  · rintro ⟨a1, a2⟩ ⟨b1, b2⟩ ⟨c1, c2⟩ h1 h2
    simp only [prodCmp, Ordering.then_eq_lt] at h1 h2 ⊢
    rcases h1 with h1 | ⟨h1e, h1g⟩ <;> rcases h2 with h2 | ⟨h2e, h2g⟩
    · exact Or.inl (hf.2.2 _ _ _ h1 h2)
    · rw [hf.1] at h2e
      subst h2e
      exact Or.inl h1
    · rw [hf.1] at h1e
      subst h1e
      exact Or.inl h2
    · rw [hf.1] at h1e
      subst h1e
      exact Or.inr ⟨h2e, hg.2.2 _ _ _ h1g h2g⟩

theorem listNatCmp_eq_listCmp : ∀ a b, listNatCmp a b = listCmp natCmp a b
  | [], [] => rfl
  | [], _ :: _ => rfl
  | _ :: _, [] => rfl
  | a :: as, b :: bs => by
    rw [listNatCmp, listCmp, listNatCmp_eq_listCmp as bs]

theorem listNatCmp_lawful : CmpLawful listNatCmp := by
  have hfun : listNatCmp = listCmp natCmp :=
    funext fun a => funext fun b => listNatCmp_eq_listCmp a b
  rw [hfun]
  exact listCmp_lawful natCmp_lawful

theorem preIdCmp_lawful : CmpLawful preIdCmp := by
  obtain ⟨leq, lsw, ltr⟩ := listNatCmp_lawful
  obtain ⟨neq, nsw, ntr⟩ := natCmp_lawful
  refine ⟨?_, ?_, ?_⟩
  · intro a b
    cases a <;> cases b <;> simp [preIdCmp, neq, leq]
  · intro a b
    cases a <;> cases b <;> simp only [preIdCmp] <;>
      first
        | rfl
        | exact nsw _ _
        | exact lsw _ _
  · intro a b c h1 h2
    cases a <;> cases b <;> cases c <;> simp only [preIdCmp] at h1 h2 ⊢ <;>
      first
        | rfl
        | exact ntr _ _ _ h1 h2
        | exact ltr _ _ _ h1 h2
        | exact absurd h1 (by decide)
        | exact absurd h2 (by decide)

theorem preListCmp_eq_listCmp : ∀ a b, preListCmp a b = listCmp preIdCmp a b
  | [], [] => rfl
  | [], _ :: _ => rfl
  | _ :: _, [] => rfl
  | a :: as, b :: bs => by
    rw [preListCmp, listCmp, preListCmp_eq_listCmp as bs]

theorem preListCmp_lawful : CmpLawful preListCmp := by
  have hfun : preListCmp = listCmp preIdCmp :=
    funext fun a => funext fun b => preListCmp_eq_listCmp a b
  rw [hfun]
  exact listCmp_lawful preIdCmp_lawful

theorem relCmp_lawful : CmpLawful relCmp := by
  obtain ⟨peq, psw, ptr⟩ := preListCmp_lawful
  refine ⟨?_, ?_, ?_⟩
  · intro a b
    cases a <;> cases b <;> simp [relCmp, peq]
  · intro a b
    cases a <;> cases b <;> simp only [relCmp] <;>
      first
        | rfl
        | exact psw _ _
  · intro a b c h1 h2
    cases a <;> cases b <;> cases c <;> simp only [relCmp] at h1 h2 ⊢ <;>
      first
        | rfl
        | exact ptr _ _ _ h1 h2
        | exact absurd h1 (by decide)
        | exact absurd h2 (by decide)

theorem semverKey_cmp_lawful :
    CmpLawful (prodCmp natCmp (prodCmp natCmp (prodCmp natCmp relCmp))) :=
  prodCmp_lawful natCmp_lawful
    (prodCmp_lawful natCmp_lawful (prodCmp_lawful natCmp_lawful relCmp_lawful))

theorem semverCmp_eq_key (a b : Semver) :
    semverCmp a b = prodCmp natCmp (prodCmp natCmp (prodCmp natCmp relCmp))
      (semverKey a) (semverKey b) := rfl

theorem semverCmp_eq_iff (a b : Semver) : semverCmp a b = .eq ↔ a = b := by
  rw [semverCmp_eq_key, semverKey_cmp_lawful.1]
  rcases a with ⟨a1, a2, a3, a4⟩
  rcases b with ⟨b1, b2, b3, b4⟩
  simp [semverKey]

theorem semverCmp_swap (a b : Semver) : (semverCmp a b).swap = semverCmp b a := by
  rw [semverCmp_eq_key, semverCmp_eq_key]
  exact semverKey_cmp_lawful.2.1 _ _

theorem semverCmp_lt_trans (a b c : Semver) (h1 : semverCmp a b = .lt)
    (h2 : semverCmp b c = .lt) : semverCmp a c = .lt := by
  rw [semverCmp_eq_key] at h1 h2 ⊢
  exact semverKey_cmp_lawful.2.2 _ _ _ h1 h2

theorem semverCmp_ge_trans (a b c : Semver) (h1 : semverCmp a b ≠ .lt)
    (h2 : semverCmp b c ≠ .lt) : semverCmp a c ≠ .lt := by
  intro hac
  cases h : semverCmp a b with
  | lt => exact h1 h
  | eq =>
    rw [semverCmp_eq_iff] at h
    subst h
    exact h2 hac
  | gt =>
    have hba : semverCmp b a = .lt := by
      rw [← semverCmp_swap a b, h]
      rfl
    exact h2 (semverCmp_lt_trans b a c hba hac)

/-! ## The detailed feed is sorted by semantic precedence descending -/

theorem mem_insertByCmp {α : Type} {f : α → α → Ordering} {x y : α} {l : List α} :
    y ∈ insertByCmp f x l ↔ y = x ∨ y ∈ l := by
  induction l with
  | nil => simp [insertByCmp]
  | cons a t ih =>
    unfold insertByCmp
    split
    · simp only [List.mem_cons, ih]
      tauto
    · simp only [List.mem_cons]

theorem mem_sortByCmp {α : Type} {f : α → α → Ordering} {x : α} {l : List α} :
    x ∈ sortByCmp f l ↔ x ∈ l := by
  induction l with
  | nil => simp [sortByCmp]
  | cons a t ih =>
    show x ∈ insertByCmp f a (sortByCmp f t) ↔ _
    rw [mem_insertByCmp, ih]
    simp

theorem compareVersions_parsed {x y : FeedVersionOut} {px py : Semver}
    (hx : parseSemver x.version = some px) (hy : parseSemver y.version = some py) :
    compareVersions x.version y.version = some (semverCmp px py) := by
  simp [compareVersions, hx, hy]

theorem insertByCmp_feed_pairwise (x : FeedVersionOut) (l : List FeedVersionOut)
    (hx : (parseSemver x.version).isSome)
    (hl : ∀ y ∈ l, (parseSemver y.version).isSome)
    (h : l.Pairwise fun a b => compareVersions a.version b.version ≠ some .lt) :
    (insertByCmp feedCmp x l).Pairwise
      (fun a b => compareVersions a.version b.version ≠ some .lt) := by
  induction l with
  | nil => simp [insertByCmp]
  | cons y ys ih =>
    obtain ⟨px, hpx⟩ := Option.isSome_iff_exists.mp hx
    have hy : (parseSemver y.version).isSome := hl y (List.mem_cons_self y ys)
    obtain ⟨py, hpy⟩ := Option.isSome_iff_exists.mp hy
    have hys : ∀ z ∈ ys, (parseSemver z.version).isSome :=
      fun z hz => hl z (List.mem_cons_of_mem y hz)
    rcases List.pairwise_cons.mp h with ⟨hhead, htail⟩
    have hfxy : feedCmp x y = semverCmp py px := by
      unfold feedCmp
      rw [compareVersions_parsed hpy hpx]
      rfl
    unfold insertByCmp
    split
    · rename_i hgt
      rw [hfxy] at hgt
      have hgt2 : semverCmp py px = Ordering.gt := by
        revert hgt
        cases semverCmp py px <;> intro hgt <;>
          first
            | rfl
            | exact absurd hgt (by decide)
      refine List.pairwise_cons.mpr ⟨?_, ih hys htail⟩
      intro z hz
      rcases mem_insertByCmp.mp hz with rfl | hzys
      · rw [compareVersions_parsed hpy hpx, hgt2]
        decide
      · exact hhead z hzys
    · rename_i hngt
      rw [hfxy] at hngt
      have hngt2 : semverCmp py px ≠ Ordering.gt := by
        intro hc
        exact hngt (by rw [hc]; rfl)
      have hxy : semverCmp px py ≠ .lt := by
        intro hc
        apply hngt2
        rw [← semverCmp_swap px py, hc]
        rfl
      refine List.pairwise_cons.mpr ⟨?_, h⟩
      intro z hz
      rcases List.mem_cons.mp hz with rfl | hzys
      · rw [compareVersions_parsed hpx hpy]
        intro hc
        exact hxy (Option.some_inj.mp hc)
      · obtain ⟨pz, hpz⟩ := Option.isSome_iff_exists.mp (hys z hzys)
        have hyz : semverCmp py pz ≠ .lt := by
          have := hhead z hzys
          rw [compareVersions_parsed hpy hpz] at this
          intro hc
          exact this (by rw [hc])
        rw [compareVersions_parsed hpx hpz]
        intro hc
        exact semverCmp_ge_trans px py pz hxy hyz (Option.some_inj.mp hc)

theorem sortByCmp_feed_sorted (l : List FeedVersionOut)
    (hl : ∀ x ∈ l, (parseSemver x.version).isSome) :
    SortedBySemverDesc (sortByCmp feedCmp l) := by
  induction l with
  | nil => simp [sortByCmp, SortedBySemverDesc]
  | cons x xs ih =>
    show (insertByCmp feedCmp x (sortByCmp feedCmp xs)).Pairwise _
    refine insertByCmp_feed_pairwise x _ (hl x (List.mem_cons_self x xs)) ?_
      (ih fun z hz => hl z (List.mem_cons_of_mem x hz))
    intro z hz
    exact hl z (List.mem_cons_of_mem x (mem_sortByCmp.mp hz))

/-! ## Claim C6 -/

/-- C6: `Helpers.compareVersions` (= `semver.compare`) realises semantic
precedence — `1.2.3 < 1.2.4`, `2.0.0 > 1.9.9`, and a prerelease sorts
strictly below the same numeric version (`1.0.0-alpha < 1.0.0`) — and on
parsed versions the strict part is irreflexive, transitive, asymmetric and
total (a strict total order).  The detailed per-package feed sorts its version
entries by this precedence descending. -/
theorem semver_order_and_feed_sorted :
    compareVersions "1.2.3" "1.2.4" = some .lt ∧
    compareVersions "2.0.0" "1.9.9" = some .gt ∧
    compareVersions "1.0.0-alpha" "1.0.0" = some .lt ∧
    (∀ a : Semver, ¬semverLt a a) ∧
    (∀ a b c : Semver, semverLt a b → semverLt b c → semverLt a c) ∧
    (∀ a b : Semver, semverLt a b → ¬semverLt b a) ∧
    (∀ a b : Semver, a ≠ b → semverLt a b ∨ semverLt b a) ∧
    (∀ (s : Reg) (proto host name : String) (fi : FeedInfo),
      detailedFeed s proto host name = .ok fi →
      (∀ x ∈ fi.versions, (parseSemver x.version).isSome) →
      SortedBySemverDesc fi.versions) := by
  refine ⟨by decide, by decide, by decide, ?_, ?_, ?_, ?_, ?_⟩
  · intro a h
    have := (semverCmp_eq_iff a a).mpr rfl
    rw [semverLt] at h
    rw [this] at h
    cases h
  · intro a b c h1 h2
    exact semverCmp_lt_trans a b c h1 h2
  · intro a b h1 h2
    have := semverCmp_lt_trans a b a h1 h2
    have hr := (semverCmp_eq_iff a a).mpr rfl
    rw [this] at hr
    cases hr
  · intro a b hne
    cases h : semverCmp a b with
    | lt => exact Or.inl h
    | eq => exact absurd ((semverCmp_eq_iff a b).mp h) hne
    | gt =>
      refine Or.inr ?_
      show semverCmp b a = .lt
      rw [← semverCmp_swap a b, h]
      rfl
  · intro s proto host name fi hfe hval
    unfold detailedFeed at hfe
    cases hpn : PackageModel.findByName s name with
    | none =>
      rw [hpn] at hfe
      cases hfe
    | some pkg =>
      rw [hpn] at hfe
      cases hb : pkg.isPublic with
      | false =>
        simp only [hb, Bool.not_false, if_true] at hfe
        cases hfe
      | true =>
        simp only [hb, Bool.not_true, Bool.false_eq_true, if_false,
          Except.ok.injEq] at hfe
        have hv : fi.versions = sortByCmp feedCmp
            ((VersionModel.findByPackageId s pkg.id).map
              (toFeedVersion proto host name)) := by
          rw [← hfe]
        rw [hv]
        refine sortByCmp_feed_sorted _ ?_
        intro z hz
        refine hval z ?_
        rw [hv, mem_sortByCmp]
        exact hz

/-- Witness for C6: totality of the strict order at concrete versions —
`1.0.0` and `2.0.0` are distinct, so one strictly precedes the other. -/
theorem semver_order_and_feed_sorted_witness :
    semverLt ⟨1, 0, 0, []⟩ ⟨2, 0, 0, []⟩ ∨ semverLt ⟨2, 0, 0, []⟩ ⟨1, 0, 0, []⟩ :=
  semver_order_and_feed_sorted.2.2.2.2.2.2.1 ⟨1, 0, 0, []⟩ ⟨2, 0, 0, []⟩ (by decide)

end FeedService
